import Mathlib

set_option maxHeartbeats 1000000

namespace ServoEventDispatch

/-- Propagation phase of an event record, mirroring the phase constants used by
eventdispatcher.rs (PhaseNone, PhaseCapturing, PhaseAtTarget, PhaseBubbling). -/
inductive Phase where
  | PhaseNone
  | PhaseCapturing
  | PhaseAtTarget
  | PhaseBubbling
deriving DecidableEq

/-- Listener phase affinity, mirroring the Capturing and Bubbling variants the
dispatcher imports from the event-target module. -/
inductive ListenerPhase where
  | Capturing
  | Bubbling
deriving DecidableEq

/-- Modelled from the spec: the event record (the event module is outside the
excerpt). The fields are exactly the ones the dispatcher reads and writes:
type identifier, target, current target, phase, the bubbles flag, the stop
flags, the default-prevented flag (stored as the cancelled field, read
through the DefaultPrevented accessor) and the dispatching reentrancy
guard. -/
structure Event where
  type_ : String
  target : Option Nat
  current_target : Option Nat
  phase : Phase
  bubbles : Bool
  stop_propagation : Bool
  stop_immediate : Bool
  cancelled : Bool
  dispatching : Bool
deriving DecidableEq

/-- Modelled from the spec: the DefaultPrevented accessor on the event record,
reading the default-prevented flag. -/
def Event.DefaultPrevented (e : Event) : Bool := e.cancelled

/-- Modelled from the spec: the effect of one listener invocation on the event
record. A listener may set stop-propagation, set stop-immediate-propagation
(which implies stop-propagation), set default-prevented, and its invocation
may finish with an exception result, as in the invoke capability of the
external-interfaces section. -/
structure ListenerEffect where
  stopPropagation : Bool
  stopImmediate : Bool
  preventDefault : Bool
  throws : Bool
deriving DecidableEq

/-- Modelled from the spec: a listener is a callable capability that observes
the event record and produces its effect. -/
def Listener := Event → ListenerEffect

/-- Modelled from the spec: applying the flag mutations of a listener effect to
the event record. Flags are only ever set, never cleared, and
stop-immediate-propagation implies stop-propagation. -/
def applyEffect (eff : ListenerEffect) (e : Event) : Event :=
  { e with
    stop_propagation := e.stop_propagation || eff.stopPropagation || eff.stopImmediate,
    stop_immediate := e.stop_immediate || eff.stopImmediate,
    cancelled := e.cancelled || eff.preventDefault }

/-- Modelled from the spec: the event-target capability consumed by the
dispatcher. Targets are identified by numbers; the structure supplies the
ancestors accessor (nearest first), the per-affinity listener lookup, the
at-target listener lookup, and the is-node test guarding chain
construction. -/
structure EventTargetWorld where
  is_node : Nat → Bool
  ancestors : Nat → List Nat
  get_listeners_for : Nat → String → ListenerPhase → Option (List Listener)
  get_listeners : Nat → String → Option (List Listener)

/-- Observable steps of one dispatch call: liveness-registry acquire and
release of a chain member, a phase transition on the event record, and a
listener invocation recording the phase, the target, the registration
index, the event state the listener observes and the effect it produced. -/
inductive LogEntry where
  | acquire (t : Nat)
  | release (t : Nat)
  | phase (p : Phase)
  | invoke (p : Phase) (t : Nat) (i : Nat) (pre : Event) (eff : ListenerEffect)
deriving DecidableEq

/-- Abnormal termination causes: the reentrancy assertion at the top of
dispatch_event, the is-ok assertion around each listener invocation, and the
is-ok assertions around AppendChild in the document-construction
routines. -/
inductive Panic where
  | reentrantDispatch
  | listenerInvocationFailed
  | assertionFailed
deriving DecidableEq

/-- The inner listener loop shared by the three phases of dispatch_event
(eventdispatcher.rs lines 50-58, 79-88 and 99-107): invoke the listeners in
registration order, asserting that each invocation result is ok, and break
once stop-immediate-propagation is observed after an invocation. -/
def invoke_listeners (p : Phase) (t : Nat) (i : Nat) (ls : List Listener) (e : Event) :
    Except Panic (Event × List LogEntry) :=
  match ls with
  | [] => .ok (e, [])
  | l :: rest =>
    let eff := l e
    if eff.throws then .error .listenerInvocationFailed
    else
      let e1 := applyEffect eff e
      if e1.stop_immediate then .ok (e1, [.invoke p t i e eff])
      else
        match invoke_listeners p t (i + 1) rest e1 with
        | .error pc => .error pc
        | .ok (e2, log) => .ok (e2, .invoke p t i e eff :: log)

/-- The per-chain traversal shared by the capturing loop (lines 46-68) and the
bubbling loop (lines 95-116): for each chain member, fetch its listeners of
the given affinity; when some are present, set current-target, run the
listener loop and stop the traversal when stop-propagation is set after the
loop. -/
def propagation_phase (p : Phase) (aff : ListenerPhase) (w : EventTargetWorld)
    (ty : String) (targets : List Nat) (e : Event) :
    Except Panic (Event × List LogEntry) :=
  match targets with
  | [] => .ok (e, [])
  | t :: rest =>
    match w.get_listeners_for t ty aff with
    | none => propagation_phase p aff w ty rest e
    | some ls =>
      match invoke_listeners p t 0 ls { e with current_target := some t } with
      | .error pc => .error pc
      | .ok (e1, log1) =>
        if e1.stop_propagation then .ok (e1, log1)
        else
          match propagation_phase p aff w ty rest e1 with
          | .error pc => .error pc
          | .ok (e2, log2) => .ok (e2, log1 ++ log2)

/-- The at-target phase (lines 71-89): entered only when stop-propagation is
not set; it sets the phase and the current target, then runs the at-target
listener list when one is registered. -/
def at_target_phase (w : EventTargetWorld) (ty : String) (target : Nat) (e : Event) :
    Except Panic (Event × List LogEntry) :=
  if e.stop_propagation then .ok (e, [])
  else
    let e1 := { e with phase := Phase.PhaseAtTarget, current_target := some target }
    match w.get_listeners target ty with
    | none => .ok (e1, [.phase .PhaseAtTarget])
    | some ls =>
      match invoke_listeners .PhaseAtTarget target 0 ls e1 with
      | .error pc => .error pc
      | .ok (e2, log) => .ok (e2, .phase .PhaseAtTarget :: log)

/-- The bubbling phase (lines 92-117): entered only when the bubbles flag is
set and stop-propagation is not; it traverses the chain in its natural
nearest-first order with bubbling affinity. -/
def bubble_phase (w : EventTargetWorld) (ty : String) (chain : List Nat) (e : Event) :
    Except Panic (Event × List LogEntry) :=
  if e.bubbles && !e.stop_propagation then
    match propagation_phase .PhaseBubbling .Bubbling w ty chain
        { e with phase := Phase.PhaseBubbling } with
    | .error pc => .error pc
    | .ok (e1, log) => .ok (e1, .phase .PhaseBubbling :: log)
  else .ok (e, [])

/-- The ancestor chain built at dispatch start (lines 31-39): the ancestors of
the actual dispatch target, nearest first, when it participates in a tree,
and empty otherwise. Every member is rooted with the liveness registry as
the chain is built. -/
def dispatchChain (w : EventTargetWorld) (target : Nat) : List Nat :=
  if w.is_node target then w.ancestors target else []

/-- Shallow embedding of dispatch_event (eventdispatcher.rs lines 13-130). The
ok result carries the default-action boolean, the final event record and
the observable step log; abnormal termination through a failed assertion is
the error case. The capturing loop walks the chain reversed (root first),
the bubbling loop walks it in natural order, and the chain members are
unrooted by popping from the end, that is in reverse acquisition order. -/
def dispatch_event (w : EventTargetWorld) (target : Nat) (pseudo_target : Option Nat)
    (e0 : Event) : Except Panic (Bool × Event × List LogEntry) :=
  if e0.dispatching then .error .reentrantDispatch
  else
    let e1 := { e0 with target := some (pseudo_target.getD target), dispatching := true }
    let ty := e1.type_
    let chain := dispatchChain w target
    let e2 := { e1 with phase := Phase.PhaseCapturing }
    match propagation_phase .PhaseCapturing .Capturing w ty chain.reverse e2 with
    | .error pc => .error pc
    | .ok (e3, capLog) =>
      match at_target_phase w ty target e3 with
      | .error pc => .error pc
      | .ok (e4, tgtLog) =>
        match bubble_phase w ty chain e4 with
        | .error pc => .error pc
        | .ok (e5, bubLog) =>
          let e6 := { e5 with dispatching := false, phase := Phase.PhaseNone,
                              current_target := none }
          .ok (!e6.DefaultPrevented,
               e6,
               chain.map LogEntry.acquire
                 ++ LogEntry.phase .PhaseCapturing :: (capLog ++ tgtLog ++ bubLog)
                 ++ (chain.map LogEntry.release).reverse)

/-- Whether a log entry is a listener invocation whose effect sets
stop-propagation (directly or through stop-immediate-propagation). -/
def setsStopPropagation : LogEntry → Bool
  | .invoke _ _ _ _ eff => eff.stopPropagation || eff.stopImmediate
  | _ => false

/-- Whether a log entry is a listener invocation whose effect sets
stop-immediate-propagation. -/
def setsStopImmediate : LogEntry → Bool
  | .invoke _ _ _ _ eff => eff.stopImmediate
  | _ => false

/-- Whether a log entry is a listener invocation whose effect sets
default-prevented. -/
def setsPreventDefault : LogEntry → Bool
  | .invoke _ _ _ _ eff => eff.preventDefault
  | _ => false

/-- Whether a log entry is a listener invocation after which the event record
has stop-immediate-propagation set. -/
def stopImmediateAfter : LogEntry → Bool
  | .invoke _ _ _ pre eff => (applyEffect eff pre).stop_immediate
  | _ => false

/-- DOM error values used by the embedded domimplementation.rs routines;
OtherError stands for the remaining error variants a collaborator may
produce. -/
inductive DOMError where
  | InvalidCharacter
  | NamespaceError
  | OtherError (code : Nat)
deriving DecidableEq

/-- Result classification of the xml-name check consumed by
CreateDocumentType: a string is an invalid XML name, a valid XML name that
is not a valid qualified name, or a valid qualified name. -/
inductive XMLNameKind where
  | InvalidXMLName
  | Name
  | QName
deriving DecidableEq

/-- The document type node produced by CreateDocumentType, carrying the
qualified name, public id and system id it was created with. -/
structure DocumentType where
  name : String
  public_id : Option String
  system_id : Option String
deriving DecidableEq

/-- Shallow embedding of CreateDocumentType (domimplementation.rs lines 62-76),
parameterised by the xml-name classifier, which lives outside the
excerpt. -/
def CreateDocumentType (xml_name_type : String → XMLNameKind)
    (qname pubid sysid : String) : Except DOMError DocumentType :=
  match xml_name_type qname with
  | .InvalidXMLName => .error .InvalidCharacter
  | .Name => .error .NamespaceError
  | .QName => .ok { name := qname, public_id := some pubid, system_id := some sysid }

/-- Description of the nodes handled during document construction: the
document itself (HTML or not), a doctype node, an element created through
CreateElementNS, the fixed named elements, and a text node. -/
inductive NodeDesc where
  | document (isHTML : Bool)
  | doctypeNode (name : String) (public_id system_id : Option String)
  | element (ns : Option String) (name : String)
  | htmlElement (name : String)
  | textNode (data : String)
deriving DecidableEq

/-- Modelled from the spec: the collaborators used by the construction
routines, per the external-interfaces section: CreateElementNS on the
fresh document, and the append-child tree-mutation service returning a
result. -/
structure ConstructionEnv where
  createElementNS : Option String → String → Except DOMError NodeDesc
  appendChild : NodeDesc → NodeDesc → Except DOMError Unit

/-- Whether an append-child result is ok. -/
def appendOk (r : Except DOMError Unit) : Bool :=
  match r with
  | .ok _ => true
  | .error _ => false

/-- Shallow embedding of CreateDocument (domimplementation.rs lines 79-121):
create a fresh non-HTML document; unless the qualified name is empty,
create the root element through CreateElementNS, propagating its error
through the Fallible result; then append the optional doctype and the
optional element, asserting that each append result is ok. -/
def CreateDocument (env : ConstructionEnv) (ns : Option String) (qname : String)
    (maybe_doctype : Option NodeDesc) : Except Panic (Except DOMError NodeDesc) :=
  let doc := NodeDesc.document false
  match (if qname.isEmpty then .ok none else (env.createElementNS ns qname).map some :
      Except DOMError (Option NodeDesc)) with
  | .error e => .ok (.error e)
  | .ok maybe_elem =>
    match maybe_doctype with
    | none =>
      match maybe_elem with
      | none => .ok (.ok doc)
      | some elem =>
        match env.appendChild doc elem with
        | .error _ => .error .assertionFailed
        | .ok _ => .ok (.ok doc)
    | some dt =>
      match env.appendChild doc dt with
      | .error _ => .error .assertionFailed
      | .ok _ =>
        match maybe_elem with
        | none => .ok (.ok doc)
        | some elem =>
          match env.appendChild doc elem with
          | .error _ => .error .assertionFailed
          | .ok _ => .ok (.ok doc)

/-- Shallow embedding of CreateHTMLDocument (domimplementation.rs lines
124-174): create a fresh HTML document and append the doctype, the html
element, the head element, the optional title element with its text child,
and the body element, asserting that every append result is ok. -/
def CreateHTMLDocument (env : ConstructionEnv) (title : Option String) :
    Except Panic NodeDesc :=
  let doc := NodeDesc.document true
  let html := NodeDesc.htmlElement ("html")
  let head := NodeDesc.htmlElement ("head")
  match env.appendChild doc (NodeDesc.doctypeNode ("html") none none) with
  | .error _ => .error .assertionFailed
  | .ok _ =>
    match env.appendChild doc html with
    | .error _ => .error .assertionFailed
    | .ok _ =>
      match env.appendChild html head with
      | .error _ => .error .assertionFailed
      | .ok _ =>
        match title with
        | none =>
          match env.appendChild html (NodeDesc.htmlElement ("body")) with
          | .error _ => .error .assertionFailed
          | .ok _ => .ok doc
        | some t =>
          match env.appendChild head (NodeDesc.htmlElement ("title")) with
          | .error _ => .error .assertionFailed
          | .ok _ =>
            match env.appendChild (NodeDesc.htmlElement ("title")) (NodeDesc.textNode t) with
            | .error _ => .error .assertionFailed
            | .ok _ =>
              match env.appendChild html (NodeDesc.htmlElement ("body")) with
              | .error _ => .error .assertionFailed
              | .ok _ => .ok doc

/-- The append-child calls CreateHTMLDocument performs, in order. -/
def htmlDocAppends (title : Option String) : List (NodeDesc × NodeDesc) :=
  (NodeDesc.document true, NodeDesc.doctypeNode ("html") none none)
    :: (NodeDesc.document true, NodeDesc.htmlElement ("html"))
    :: (NodeDesc.htmlElement ("html"), NodeDesc.htmlElement ("head"))
    :: ((match title with
         | none => []
         | some t => [(NodeDesc.htmlElement ("head"), NodeDesc.htmlElement ("title")),
                      (NodeDesc.htmlElement ("title"), NodeDesc.textNode t)])
        ++ [(NodeDesc.htmlElement ("html"), NodeDesc.htmlElement ("body"))])

/-- The append-child calls CreateDocument performs, in order, given the
optional doctype and the optional created element. -/
def createDocAppends (maybe_doctype maybe_elem : Option NodeDesc) :
    List (NodeDesc × NodeDesc) :=
  (match maybe_doctype with
   | none => []
   | some dt => [(NodeDesc.document false, dt)]) ++
  (match maybe_elem with
   | none => []
   | some elem => [(NodeDesc.document false, elem)])

/-- A world with no tree structure and no listeners. -/
def emptyWorld : EventTargetWorld :=
  { is_node := fun _ => false,
    ancestors := fun _ => [],
    get_listeners_for := fun _ _ _ => none,
    get_listeners := fun _ _ => none }

/-- A fresh idle event record used by concrete runs. -/
def baseEvent : Event :=
  { type_ := "ev", target := none, current_target := none, phase := .PhaseNone,
    bubbles := false, stop_propagation := false, stop_immediate := false,
    cancelled := false, dispatching := false }

/-- A world whose only registered listener is an at-target listener whose
invocation finishes with an exception result. -/
def throwingWorld : EventTargetWorld :=
  { is_node := fun _ => false,
    ancestors := fun _ => [],
    get_listeners_for := fun _ _ _ => none,
    get_listeners := fun _ _ => some [fun _ =>
      { stopPropagation := false, stopImmediate := false,
        preventDefault := false, throws := true }] }

/-- Listener effect that only sets stop-immediate-propagation. -/
def siEffect : ListenerEffect :=
  { stopPropagation := false, stopImmediate := true, preventDefault := false, throws := false }

/-- Listener effect that only sets stop-propagation. -/
def spEffect : ListenerEffect :=
  { stopPropagation := true, stopImmediate := false, preventDefault := false, throws := false }

/-- Listener effect that only sets default-prevented. -/
def pdEffect : ListenerEffect :=
  { stopPropagation := false, stopImmediate := false, preventDefault := true, throws := false }

/-- A world with a two-member ancestor chain and no listeners. -/
def chainWorld : EventTargetWorld :=
  { is_node := fun _ => true,
    ancestors := fun _ => [1, 2],
    get_listeners_for := fun _ _ _ => none,
    get_listeners := fun _ _ => none }

/-- A world whose at-target listener list is a stop-immediate listener followed
by a default-prevented listener. -/
def siWorld : EventTargetWorld :=
  { is_node := fun _ => false,
    ancestors := fun _ => [],
    get_listeners_for := fun _ _ _ => none,
    get_listeners := fun _ _ => some [fun _ => siEffect, fun _ => pdEffect] }

/-- A world with one ancestor carrying a capturing listener that sets
stop-propagation followed by one that sets default-prevented. -/
def spWorld : EventTargetWorld :=
  { is_node := fun _ => true,
    ancestors := fun _ => [1],
    get_listeners_for := fun _ _ _ => some [fun _ => spEffect, fun _ => pdEffect],
    get_listeners := fun _ _ => none }

/-- The event state observed by the first capturing listener of spWorld. -/
def spWitnessPre : Event :=
  { baseEvent with target := some 0, dispatching := true, phase := .PhaseCapturing,
                   current_target := some 1 }

/-- The event state observed by the second capturing listener of spWorld. -/
def spWitnessPre2 : Event :=
  { spWitnessPre with stop_propagation := true }

/-- The event state observed by the at-target listener of siWorld. -/
def siWitnessPre : Event :=
  { baseEvent with target := some 0, dispatching := true, phase := .PhaseAtTarget,
                   current_target := some 0 }

@[simp] theorem applyEffect_type (eff : ListenerEffect) (e : Event) :
    (applyEffect eff e).type_ = e.type_ := rfl

@[simp] theorem applyEffect_target (eff : ListenerEffect) (e : Event) :
    (applyEffect eff e).target = e.target := rfl

@[simp] theorem applyEffect_current_target (eff : ListenerEffect) (e : Event) :
    (applyEffect eff e).current_target = e.current_target := rfl

@[simp] theorem applyEffect_phase (eff : ListenerEffect) (e : Event) :
    (applyEffect eff e).phase = e.phase := rfl

@[simp] theorem applyEffect_bubbles (eff : ListenerEffect) (e : Event) :
    (applyEffect eff e).bubbles = e.bubbles := rfl

@[simp] theorem applyEffect_dispatching (eff : ListenerEffect) (e : Event) :
    (applyEffect eff e).dispatching = e.dispatching := rfl

theorem applyEffect_sp (eff : ListenerEffect) (e : Event) :
    (applyEffect eff e).stop_propagation
      = (e.stop_propagation || (eff.stopPropagation || eff.stopImmediate)) := by
  simp [applyEffect, Bool.or_assoc]

theorem applyEffect_si (eff : ListenerEffect) (e : Event) :
    (applyEffect eff e).stop_immediate = (e.stop_immediate || eff.stopImmediate) := rfl

theorem applyEffect_cancelled (eff : ListenerEffect) (e : Event) :
    (applyEffect eff e).cancelled = (e.cancelled || eff.preventDefault) := rfl

theorem il_fields {p : Phase} {t : Nat} {ls : List Listener} : ∀ {i : Nat} {e e1 : Event}
    {log : List LogEntry}, invoke_listeners p t i ls e = .ok (e1, log) →
    e1.type_ = e.type_ ∧ e1.bubbles = e.bubbles ∧ e1.dispatching = e.dispatching ∧
      e1.phase = e.phase ∧ e1.current_target = e.current_target ∧ e1.target = e.target := by
  induction ls with
  | nil =>
    intro i e e1 log h
    simp only [invoke_listeners, Except.ok.injEq, Prod.mk.injEq] at h
    obtain ⟨rfl, rfl⟩ := h
    exact ⟨rfl, rfl, rfl, rfl, rfl, rfl⟩
  | cons l rest ih =>
    intro i e e1 log h
    simp only [invoke_listeners] at h
    by_cases ht : (l e).throws = true
    · simp [ht] at h
    · simp only [ht, if_false, Bool.false_eq_true] at h
      by_cases hsi : (applyEffect (l e) e).stop_immediate = true
      · simp only [hsi, if_true, Except.ok.injEq, Prod.mk.injEq] at h
        obtain ⟨rfl, rfl⟩ := h
        exact ⟨rfl, rfl, rfl, rfl, rfl, rfl⟩
      · simp only [hsi, if_false, Bool.false_eq_true] at h
        cases hrec : invoke_listeners p t (i + 1) rest (applyEffect (l e) e) with
        | error pc => rw [hrec] at h; exact absurd h (by simp)
        | ok pr =>
          obtain ⟨e2, log2⟩ := pr
          rw [hrec] at h
          simp only [Except.ok.injEq, Prod.mk.injEq] at h
          obtain ⟨rfl, rfl⟩ := h
          obtain ⟨h1, h2, h3, h4, h5, h6⟩ := ih hrec
          simp only [applyEffect_type, applyEffect_bubbles, applyEffect_dispatching,
            applyEffect_phase, applyEffect_current_target, applyEffect_target] at h1 h2 h3 h4 h5 h6
          exact ⟨h1, h2, h3, h4, h5, h6⟩

theorem il_sp_or {p : Phase} {t : Nat} {ls : List Listener} : ∀ {i : Nat} {e e1 : Event}
    {log : List LogEntry}, invoke_listeners p t i ls e = .ok (e1, log) →
    e1.stop_propagation = (e.stop_propagation || log.any setsStopPropagation) := by
  induction ls with
  | nil =>
    intro i e e1 log h
    simp only [invoke_listeners, Except.ok.injEq, Prod.mk.injEq] at h
    obtain ⟨rfl, rfl⟩ := h
    simp
  | cons l rest ih =>
    intro i e e1 log h
    simp only [invoke_listeners] at h
    by_cases ht : (l e).throws = true
    · simp [ht] at h
    · simp only [ht, if_false, Bool.false_eq_true] at h
      by_cases hsi : (applyEffect (l e) e).stop_immediate = true
      · simp only [hsi, if_true, Except.ok.injEq, Prod.mk.injEq] at h
        obtain ⟨rfl, rfl⟩ := h
        simp [applyEffect_sp, setsStopPropagation]
      · simp only [hsi, if_false, Bool.false_eq_true] at h
        cases hrec : invoke_listeners p t (i + 1) rest (applyEffect (l e) e) with
        | error pc => rw [hrec] at h; exact absurd h (by simp)
        | ok pr =>
          obtain ⟨e2, log2⟩ := pr
          rw [hrec] at h
          simp only [Except.ok.injEq, Prod.mk.injEq] at h
          obtain ⟨rfl, rfl⟩ := h
          rw [ih hrec, applyEffect_sp]
          simp [setsStopPropagation, Bool.or_assoc]

theorem il_pd_or {p : Phase} {t : Nat} {ls : List Listener} : ∀ {i : Nat} {e e1 : Event}
    {log : List LogEntry}, invoke_listeners p t i ls e = .ok (e1, log) →
    e1.cancelled = (e.cancelled || log.any setsPreventDefault) := by
  induction ls with
  | nil =>
    intro i e e1 log h
    simp only [invoke_listeners, Except.ok.injEq, Prod.mk.injEq] at h
    obtain ⟨rfl, rfl⟩ := h
    simp
  | cons l rest ih =>
    intro i e e1 log h
    simp only [invoke_listeners] at h
    by_cases ht : (l e).throws = true
    · simp [ht] at h
    · simp only [ht, if_false, Bool.false_eq_true] at h
      by_cases hsi : (applyEffect (l e) e).stop_immediate = true
      · simp only [hsi, if_true, Except.ok.injEq, Prod.mk.injEq] at h
        obtain ⟨rfl, rfl⟩ := h
        simp [applyEffect_cancelled, setsPreventDefault]
      · simp only [hsi, if_false, Bool.false_eq_true] at h
        cases hrec : invoke_listeners p t (i + 1) rest (applyEffect (l e) e) with
        | error pc => rw [hrec] at h; exact absurd h (by simp)
        | ok pr =>
          obtain ⟨e2, log2⟩ := pr
          rw [hrec] at h
          simp only [Except.ok.injEq, Prod.mk.injEq] at h
          obtain ⟨rfl, rfl⟩ := h
          rw [ih hrec, applyEffect_cancelled]
          simp [setsPreventDefault, Bool.or_assoc]

theorem il_tags {p : Phase} {t : Nat} {ls : List Listener} : ∀ {i : Nat} {e e1 : Event}
    {log : List LogEntry}, invoke_listeners p t i ls e = .ok (e1, log) →
    ∀ en ∈ log, ∃ j pre eff, en = LogEntry.invoke p t j pre eff := by
  induction ls with
  | nil =>
    intro i e e1 log h
    simp only [invoke_listeners, Except.ok.injEq, Prod.mk.injEq] at h
    obtain ⟨rfl, rfl⟩ := h
    intro en hen
    exact absurd hen (by simp)
  | cons l rest ih =>
    intro i e e1 log h
    simp only [invoke_listeners] at h
    by_cases ht : (l e).throws = true
    · simp [ht] at h
    · simp only [ht, if_false, Bool.false_eq_true] at h
      by_cases hsi : (applyEffect (l e) e).stop_immediate = true
      · simp only [hsi, if_true, Except.ok.injEq, Prod.mk.injEq] at h
        obtain ⟨rfl, rfl⟩ := h
        intro en hen
        simp only [List.mem_singleton] at hen
        exact ⟨i, e, l e, hen⟩
      · simp only [hsi, if_false, Bool.false_eq_true] at h
        cases hrec : invoke_listeners p t (i + 1) rest (applyEffect (l e) e) with
        | error pc => rw [hrec] at h; exact absurd h (by simp)
        | ok pr =>
          obtain ⟨e2, log2⟩ := pr
          rw [hrec] at h
          simp only [Except.ok.injEq, Prod.mk.injEq] at h
          obtain ⟨rfl, rfl⟩ := h
          intro en hen
          simp only [List.mem_cons] at hen
          cases hen with
          | inl hh => exact ⟨i, e, l e, hh⟩
          | inr hh => exact ih hrec en hh

theorem il_pre_disp {p : Phase} {t : Nat} {ls : List Listener} : ∀ {i : Nat} {e e1 : Event}
    {log : List LogEntry}, invoke_listeners p t i ls e = .ok (e1, log) →
    ∀ en ∈ log, ∀ p2 t2 j pre eff, en = LogEntry.invoke p2 t2 j pre eff →
      pre.dispatching = e.dispatching := by
  induction ls with
  | nil =>
    intro i e e1 log h
    simp only [invoke_listeners, Except.ok.injEq, Prod.mk.injEq] at h
    obtain ⟨rfl, rfl⟩ := h
    intro en hen
    exact absurd hen (by simp)
  | cons l rest ih =>
    intro i e e1 log h
    simp only [invoke_listeners] at h
    by_cases ht : (l e).throws = true
    · simp [ht] at h
    · simp only [ht, if_false, Bool.false_eq_true] at h
      by_cases hsi : (applyEffect (l e) e).stop_immediate = true
      · simp only [hsi, if_true, Except.ok.injEq, Prod.mk.injEq] at h
        obtain ⟨rfl, rfl⟩ := h
        intro en hen p2 t2 j pre eff heq
        simp only [List.mem_singleton] at hen
        subst hen
        cases heq
        rfl
      · simp only [hsi, if_false, Bool.false_eq_true] at h
        cases hrec : invoke_listeners p t (i + 1) rest (applyEffect (l e) e) with
        | error pc => rw [hrec] at h; exact absurd h (by simp)
        | ok pr =>
          obtain ⟨e2, log2⟩ := pr
          rw [hrec] at h
          simp only [Except.ok.injEq, Prod.mk.injEq] at h
          obtain ⟨rfl, rfl⟩ := h
          intro en hen p2 t2 j pre eff heq
          simp only [List.mem_cons] at hen
          cases hen with
          | inl hh =>
            subst hh
            cases heq
            rfl
          | inr hh =>
            have := ih hrec en hh p2 t2 j pre eff heq
            rwa [applyEffect_dispatching] at this

theorem il_last_si {p : Phase} {t : Nat} {ls : List Listener} : ∀ {i : Nat} {e e1 : Event}
    {log : List LogEntry}, invoke_listeners p t i ls e = .ok (e1, log) →
    ∀ xs en ys, log = xs ++ en :: ys → stopImmediateAfter en = true → ys = [] := by
  induction ls with
  | nil =>
    intro i e e1 log h
    simp only [invoke_listeners, Except.ok.injEq, Prod.mk.injEq] at h
    obtain ⟨rfl, rfl⟩ := h
    intro xs en ys hsplit
    exact absurd hsplit.symm (by simp)
  | cons l rest ih =>
    intro i e e1 log h
    simp only [invoke_listeners] at h
    by_cases ht : (l e).throws = true
    · simp [ht] at h
    · simp only [ht, if_false, Bool.false_eq_true] at h
      by_cases hsi : (applyEffect (l e) e).stop_immediate = true
      · simp only [hsi, if_true, Except.ok.injEq, Prod.mk.injEq] at h
        obtain ⟨rfl, rfl⟩ := h
        intro xs en ys hsplit _
        have hlen := congrArg List.length hsplit
        simp at hlen
        have hys : ys.length = 0 := by omega
        exact List.eq_nil_of_length_eq_zero hys
      · simp only [hsi, if_false, Bool.false_eq_true] at h
        cases hrec : invoke_listeners p t (i + 1) rest (applyEffect (l e) e) with
        | error pc => rw [hrec] at h; exact absurd h (by simp)
        | ok pr =>
          obtain ⟨e2, log2⟩ := pr
          rw [hrec] at h
          simp only [Except.ok.injEq, Prod.mk.injEq] at h
          obtain ⟨rfl, rfl⟩ := h
          intro xs en ys hsplit hstop
          cases xs with
          | nil =>
            simp only [List.nil_append, List.cons.injEq] at hsplit
            obtain ⟨rfl, rfl⟩ := hsplit
            simp only [stopImmediateAfter] at hstop
            exact absurd hstop (by simp [hsi])
          | cons x xs2 =>
            simp only [List.cons_append, List.cons.injEq] at hsplit
            exact ih hrec xs2 en ys hsplit.2 hstop

theorem il_start_si {p : Phase} {t : Nat} {ls : List Listener} {i : Nat} {e e1 : Event}
    {log : List LogEntry} (h : invoke_listeners p t i ls e = .ok (e1, log))
    (hsi : e.stop_immediate = true) :
    (log = [] ∨ ∃ pre eff, log = [LogEntry.invoke p t i pre eff]) ∧
      e1.stop_immediate = true := by
  cases ls with
  | nil =>
    simp only [invoke_listeners, Except.ok.injEq, Prod.mk.injEq] at h
    obtain ⟨rfl, rfl⟩ := h
    exact ⟨Or.inl rfl, hsi⟩
  | cons l rest =>
    simp only [invoke_listeners] at h
    by_cases ht : (l e).throws = true
    · simp [ht] at h
    · simp only [ht, if_false, Bool.false_eq_true] at h
      have hsi1 : (applyEffect (l e) e).stop_immediate = true := by
        rw [applyEffect_si, hsi]
        simp
      simp only [hsi1, if_true, Except.ok.injEq, Prod.mk.injEq] at h
      obtain ⟨rfl, rfl⟩ := h
      exact ⟨Or.inr ⟨e, l e, rfl⟩, hsi1⟩

theorem il_postSI_final {p : Phase} {t : Nat} {ls : List Listener} : ∀ {i : Nat} {e e1 : Event}
    {log : List LogEntry}, invoke_listeners p t i ls e = .ok (e1, log) →
    ∀ en ∈ log, stopImmediateAfter en = true → e1.stop_immediate = true := by
  induction ls with
  | nil =>
    intro i e e1 log h
    simp only [invoke_listeners, Except.ok.injEq, Prod.mk.injEq] at h
    obtain ⟨rfl, rfl⟩ := h
    intro en hen
    exact absurd hen (by simp)
  | cons l rest ih =>
    intro i e e1 log h
    simp only [invoke_listeners] at h
    by_cases ht : (l e).throws = true
    · simp [ht] at h
    · simp only [ht, if_false, Bool.false_eq_true] at h
      by_cases hsi : (applyEffect (l e) e).stop_immediate = true
      · simp only [hsi, if_true, Except.ok.injEq, Prod.mk.injEq] at h
        obtain ⟨rfl, rfl⟩ := h
        intro en hen _
        exact hsi
      · simp only [hsi, if_false, Bool.false_eq_true] at h
        cases hrec : invoke_listeners p t (i + 1) rest (applyEffect (l e) e) with
        | error pc => rw [hrec] at h; exact absurd h (by simp)
        | ok pr =>
          obtain ⟨e2, log2⟩ := pr
          rw [hrec] at h
          simp only [Except.ok.injEq, Prod.mk.injEq] at h
          obtain ⟨rfl, rfl⟩ := h
          intro en hen hstop
          simp only [List.mem_cons] at hen
          cases hen with
          | inl hh =>
            subst hh
            simp only [stopImmediateAfter] at hstop
            exact absurd hstop (by simp [hsi])
          | inr hh => exact ih hrec en hh hstop

theorem il_err {p : Phase} {t : Nat} {ls : List Listener} : ∀ {i : Nat} {e : Event}
    {pc : Panic}, invoke_listeners p t i ls e = .error pc →
    pc = .listenerInvocationFailed := by
  induction ls with
  | nil =>
    intro i e pc h
    simp [invoke_listeners] at h
  | cons l rest ih =>
    intro i e pc h
    simp only [invoke_listeners] at h
    by_cases ht : (l e).throws = true
    · simp only [ht, if_true, Except.error.injEq] at h
      exact h.symm
    · simp only [ht, if_false, Bool.false_eq_true] at h
      by_cases hsi : (applyEffect (l e) e).stop_immediate = true
      · simp [hsi] at h
      · simp only [hsi, if_false, Bool.false_eq_true] at h
        cases hrec : invoke_listeners p t (i + 1) rest (applyEffect (l e) e) with
        | error pc2 =>
          rw [hrec] at h
          simp only [Except.error.injEq] at h
          subst h
          exact ih hrec
        | ok pr =>
          obtain ⟨e2, log2⟩ := pr
          rw [hrec] at h
          exact absurd h (by simp)

@[simp] theorem setCT_type (e : Event) (c : Option Nat) :
    ({ e with current_target := c } : Event).type_ = e.type_ := rfl

@[simp] theorem setCT_target (e : Event) (c : Option Nat) :
    ({ e with current_target := c } : Event).target = e.target := rfl

@[simp] theorem setCT_phase (e : Event) (c : Option Nat) :
    ({ e with current_target := c } : Event).phase = e.phase := rfl

@[simp] theorem setCT_bubbles (e : Event) (c : Option Nat) :
    ({ e with current_target := c } : Event).bubbles = e.bubbles := rfl

@[simp] theorem setCT_sp (e : Event) (c : Option Nat) :
    ({ e with current_target := c } : Event).stop_propagation = e.stop_propagation := rfl

@[simp] theorem setCT_si (e : Event) (c : Option Nat) :
    ({ e with current_target := c } : Event).stop_immediate = e.stop_immediate := rfl

@[simp] theorem setCT_cancelled (e : Event) (c : Option Nat) :
    ({ e with current_target := c } : Event).cancelled = e.cancelled := rfl

@[simp] theorem setCT_dispatching (e : Event) (c : Option Nat) :
    ({ e with current_target := c } : Event).dispatching = e.dispatching := rfl

theorem split_middle {α : Type} : ∀ (xs l1 l2 ys : List α) (a : α),
    l1 ++ l2 = xs ++ a :: ys →
    (∃ tl, l1 = xs ++ a :: tl ∧ ys = tl ++ l2) ∨
      (∃ s, xs = l1 ++ s ∧ l2 = s ++ a :: ys) := by
  intro xs
  induction xs with
  | nil =>
    intro l1 l2 ys a h
    cases l1 with
    | nil =>
      right
      exact ⟨[], rfl, by simpa using h⟩
    | cons b l1t =>
      simp only [List.cons_append, List.nil_append, List.cons.injEq] at h
      obtain ⟨rfl, h2⟩ := h
      left
      exact ⟨l1t, rfl, h2.symm⟩
  | cons x xst ih =>
    intro l1 l2 ys a h
    cases l1 with
    | nil =>
      right
      exact ⟨x :: xst, rfl, by simpa using h⟩
    | cons b l1t =>
      simp only [List.cons_append, List.cons.injEq] at h
      obtain ⟨rfl, h2⟩ := h
      rcases ih l1t l2 ys a h2 with ⟨tl, h3, h4⟩ | ⟨s, h3, h4⟩
      · left
        exact ⟨tl, by simp [h3], h4⟩
      · right
        exact ⟨s, by simp [h3], h4⟩

theorem locate_mem {α : Type} {u v w xs ys : List α} {a : α}
    (h : u ++ v ++ w = xs ++ a :: ys) (hu : a ∉ u) (hw : a ∉ w) :
    ∃ xs2 ys2, v = xs2 ++ a :: ys2 ∧ ys = ys2 ++ w := by
  rcases split_middle xs u (v ++ w) ys a (by simpa [List.append_assoc] using h) with
    ⟨tl, h1, h2⟩ | ⟨s, h1, h2⟩
  · exact absurd (by rw [h1]; simp : a ∈ u) hu
  · rcases split_middle s v w ys a h2 with ⟨tl2, h3, h4⟩ | ⟨s2, h3, h4⟩
    · exact ⟨s, tl2, h3, h4⟩
    · exact absurd (by rw [h4]; simp : a ∈ w) hw

theorem pp_fields {p : Phase} {aff : ListenerPhase} {w : EventTargetWorld} {ty : String} :
    ∀ {targets : List Nat} {e e2 : Event} {log : List LogEntry},
    propagation_phase p aff w ty targets e = .ok (e2, log) →
    e2.type_ = e.type_ ∧ e2.bubbles = e.bubbles ∧ e2.dispatching = e.dispatching ∧
      e2.phase = e.phase ∧ e2.target = e.target := by
  intro targets
  induction targets with
  | nil =>
    intro e e2 log h
    simp only [propagation_phase, Except.ok.injEq, Prod.mk.injEq] at h
    obtain ⟨rfl, rfl⟩ := h
    exact ⟨rfl, rfl, rfl, rfl, rfl⟩
  | cons t rest ih =>
    intro e e2 log h
    simp only [propagation_phase] at h
    cases hL : w.get_listeners_for t ty aff with
    | none =>
      simp only [hL] at h
      exact ih h
    | some ls =>
      simp only [hL] at h
      cases hInv : invoke_listeners p t 0 ls { e with current_target := some t } with
      | error pc => rw [hInv] at h; exact absurd h (by simp)
      | ok pr =>
        obtain ⟨e1, log1⟩ := pr
        rw [hInv] at h
        obtain ⟨f1, f2, f3, f4, f5⟩ :
            e1.type_ = e.type_ ∧ e1.bubbles = e.bubbles ∧ e1.dispatching = e.dispatching ∧
              e1.phase = e.phase ∧ e1.target = e.target := by
          obtain ⟨g1, g2, g3, g4, _, g6⟩ := il_fields hInv
          exact ⟨g1, g2, g3, g4, g6⟩
        by_cases hsp : e1.stop_propagation = true
        · simp only [hsp, if_true, Except.ok.injEq, Prod.mk.injEq] at h
          obtain ⟨rfl, rfl⟩ := h
          exact ⟨f1, f2, f3, f4, f5⟩
        · simp only [hsp, if_false, Bool.false_eq_true] at h
          cases hRec : propagation_phase p aff w ty rest e1 with
          | error pc => rw [hRec] at h; exact absurd h (by simp)
          | ok pr2 =>
            obtain ⟨e2b, log2⟩ := pr2
            rw [hRec] at h
            simp only [Except.ok.injEq, Prod.mk.injEq] at h
            obtain ⟨rfl, rfl⟩ := h
            obtain ⟨g1, g2, g3, g4, g5⟩ := ih hRec
            exact ⟨g1.trans f1, g2.trans f2, g3.trans f3, g4.trans f4, g5.trans f5⟩

theorem pp_sp_or {p : Phase} {aff : ListenerPhase} {w : EventTargetWorld} {ty : String} :
    ∀ {targets : List Nat} {e e2 : Event} {log : List LogEntry},
    propagation_phase p aff w ty targets e = .ok (e2, log) →
    e2.stop_propagation = (e.stop_propagation || log.any setsStopPropagation) := by
  intro targets
  induction targets with
  | nil =>
    intro e e2 log h
    simp only [propagation_phase, Except.ok.injEq, Prod.mk.injEq] at h
    obtain ⟨rfl, rfl⟩ := h
    simp
  | cons t rest ih =>
    intro e e2 log h
    simp only [propagation_phase] at h
    cases hL : w.get_listeners_for t ty aff with
    | none =>
      simp only [hL] at h
      exact ih h
    | some ls =>
      simp only [hL] at h
      cases hInv : invoke_listeners p t 0 ls { e with current_target := some t } with
      | error pc => rw [hInv] at h; exact absurd h (by simp)
      | ok pr =>
        obtain ⟨e1, log1⟩ := pr
        rw [hInv] at h
        have h1 := il_sp_or hInv
        rw [setCT_sp] at h1
        by_cases hsp : e1.stop_propagation = true
        · simp only [hsp, if_true, Except.ok.injEq, Prod.mk.injEq] at h
          obtain ⟨rfl, rfl⟩ := h
          exact h1
        · simp only [hsp, if_false, Bool.false_eq_true] at h
          cases hRec : propagation_phase p aff w ty rest e1 with
          | error pc => rw [hRec] at h; exact absurd h (by simp)
          | ok pr2 =>
            obtain ⟨e2b, log2⟩ := pr2
            rw [hRec] at h
            simp only [Except.ok.injEq, Prod.mk.injEq] at h
            obtain ⟨rfl, rfl⟩ := h
            have hspf : e1.stop_propagation = false := by
              cases hv : e1.stop_propagation
              · rfl
              · exact absurd hv hsp
            rw [hspf] at h1
            have h1s := h1.symm
            simp only [Bool.or_eq_false_iff] at h1s
            rw [ih hRec, hspf]
            simp [List.any_append, h1s.1, h1s.2]

theorem pp_pd_or {p : Phase} {aff : ListenerPhase} {w : EventTargetWorld} {ty : String} :
    ∀ {targets : List Nat} {e e2 : Event} {log : List LogEntry},
    propagation_phase p aff w ty targets e = .ok (e2, log) →
    e2.cancelled = (e.cancelled || log.any setsPreventDefault) := by
  intro targets
  induction targets with
  | nil =>
    intro e e2 log h
    simp only [propagation_phase, Except.ok.injEq, Prod.mk.injEq] at h
    obtain ⟨rfl, rfl⟩ := h
    simp
  | cons t rest ih =>
    intro e e2 log h
    simp only [propagation_phase] at h
    cases hL : w.get_listeners_for t ty aff with
    | none =>
      simp only [hL] at h
      exact ih h
    | some ls =>
      simp only [hL] at h
      cases hInv : invoke_listeners p t 0 ls { e with current_target := some t } with
      | error pc => rw [hInv] at h; exact absurd h (by simp)
      | ok pr =>
        obtain ⟨e1, log1⟩ := pr
        rw [hInv] at h
        have h1 := il_pd_or hInv
        rw [setCT_cancelled] at h1
        by_cases hsp : e1.stop_propagation = true
        · simp only [hsp, if_true, Except.ok.injEq, Prod.mk.injEq] at h
          obtain ⟨rfl, rfl⟩ := h
          exact h1
        · simp only [hsp, if_false, Bool.false_eq_true] at h
          cases hRec : propagation_phase p aff w ty rest e1 with
          | error pc => rw [hRec] at h; exact absurd h (by simp)
          | ok pr2 =>
            obtain ⟨e2b, log2⟩ := pr2
            rw [hRec] at h
            simp only [Except.ok.injEq, Prod.mk.injEq] at h
            obtain ⟨rfl, rfl⟩ := h
            rw [ih hRec, h1]
            simp [List.any_append, Bool.or_assoc]

theorem pp_tags {p : Phase} {aff : ListenerPhase} {w : EventTargetWorld} {ty : String} :
    ∀ {targets : List Nat} {e e2 : Event} {log : List LogEntry},
    propagation_phase p aff w ty targets e = .ok (e2, log) →
    ∀ en ∈ log, ∃ t j pre eff, en = LogEntry.invoke p t j pre eff := by
  intro targets
  induction targets with
  | nil =>
    intro e e2 log h
    simp only [propagation_phase, Except.ok.injEq, Prod.mk.injEq] at h
    obtain ⟨rfl, rfl⟩ := h
    intro en hen
    exact absurd hen (by simp)
  | cons t rest ih =>
    intro e e2 log h
    simp only [propagation_phase] at h
    cases hL : w.get_listeners_for t ty aff with
    | none =>
      simp only [hL] at h
      exact ih h
    | some ls =>
      simp only [hL] at h
      cases hInv : invoke_listeners p t 0 ls { e with current_target := some t } with
      | error pc => rw [hInv] at h; exact absurd h (by simp)
      | ok pr =>
        obtain ⟨e1, log1⟩ := pr
        rw [hInv] at h
        by_cases hsp : e1.stop_propagation = true
        · simp only [hsp, if_true, Except.ok.injEq, Prod.mk.injEq] at h
          obtain ⟨rfl, rfl⟩ := h
          intro en hen
          obtain ⟨j, pre, eff, heq⟩ := il_tags hInv en hen
          exact ⟨t, j, pre, eff, heq⟩
        · simp only [hsp, if_false, Bool.false_eq_true] at h
          cases hRec : propagation_phase p aff w ty rest e1 with
          | error pc => rw [hRec] at h; exact absurd h (by simp)
          | ok pr2 =>
            obtain ⟨e2b, log2⟩ := pr2
            rw [hRec] at h
            simp only [Except.ok.injEq, Prod.mk.injEq] at h
            obtain ⟨rfl, rfl⟩ := h
            intro en hen
            rcases List.mem_append.mp hen with hh | hh
            · obtain ⟨j, pre, eff, heq⟩ := il_tags hInv en hh
              exact ⟨t, j, pre, eff, heq⟩
            · exact ih hRec en hh

theorem pp_pre_disp {p : Phase} {aff : ListenerPhase} {w : EventTargetWorld} {ty : String} :
    ∀ {targets : List Nat} {e e2 : Event} {log : List LogEntry},
    propagation_phase p aff w ty targets e = .ok (e2, log) →
    ∀ en ∈ log, ∀ p2 t2 j pre eff, en = LogEntry.invoke p2 t2 j pre eff →
      pre.dispatching = e.dispatching := by
  intro targets
  induction targets with
  | nil =>
    intro e e2 log h
    simp only [propagation_phase, Except.ok.injEq, Prod.mk.injEq] at h
    obtain ⟨rfl, rfl⟩ := h
    intro en hen
    exact absurd hen (by simp)
  | cons t rest ih =>
    intro e e2 log h
    simp only [propagation_phase] at h
    cases hL : w.get_listeners_for t ty aff with
    | none =>
      simp only [hL] at h
      exact ih h
    | some ls =>
      simp only [hL] at h
      cases hInv : invoke_listeners p t 0 ls { e with current_target := some t } with
      | error pc => rw [hInv] at h; exact absurd h (by simp)
      | ok pr =>
        obtain ⟨e1, log1⟩ := pr
        rw [hInv] at h
        have hd1 := (il_fields hInv).2.2.1
        rw [setCT_dispatching] at hd1
        by_cases hsp : e1.stop_propagation = true
        · simp only [hsp, if_true, Except.ok.injEq, Prod.mk.injEq] at h
          obtain ⟨rfl, rfl⟩ := h
          intro en hen p2 t2 j pre eff heq
          have hx := il_pre_disp hInv en hen p2 t2 j pre eff heq
          simpa using hx
        · simp only [hsp, if_false, Bool.false_eq_true] at h
          cases hRec : propagation_phase p aff w ty rest e1 with
          | error pc => rw [hRec] at h; exact absurd h (by simp)
          | ok pr2 =>
            obtain ⟨e2b, log2⟩ := pr2
            rw [hRec] at h
            simp only [Except.ok.injEq, Prod.mk.injEq] at h
            obtain ⟨rfl, rfl⟩ := h
            intro en hen p2 t2 j pre eff heq
            rcases List.mem_append.mp hen with hh | hh
            · have hx := il_pre_disp hInv en hh p2 t2 j pre eff heq
              simpa using hx
            · exact (ih hRec en hh p2 t2 j pre eff heq).trans hd1

theorem pp_si0 {p : Phase} {aff : ListenerPhase} {w : EventTargetWorld} {ty : String} :
    ∀ {targets : List Nat} {e e2 : Event} {log : List LogEntry},
    propagation_phase p aff w ty targets e = .ok (e2, log) →
    e.stop_immediate = true →
    (∀ en ∈ log, ∀ p2 t2 j pre eff, en = LogEntry.invoke p2 t2 j pre eff → j = 0) ∧
      e2.stop_immediate = true := by
  intro targets
  induction targets with
  | nil =>
    intro e e2 log h hsi
    simp only [propagation_phase, Except.ok.injEq, Prod.mk.injEq] at h
    obtain ⟨rfl, rfl⟩ := h
    exact ⟨fun en hen => absurd hen (by simp), hsi⟩
  | cons t rest ih =>
    intro e e2 log h hsi
    simp only [propagation_phase] at h
    cases hL : w.get_listeners_for t ty aff with
    | none =>
      simp only [hL] at h
      exact ih h hsi
    | some ls =>
      simp only [hL] at h
      cases hInv : invoke_listeners p t 0 ls { e with current_target := some t } with
      | error pc => rw [hInv] at h; exact absurd h (by simp)
      | ok pr =>
        obtain ⟨e1, log1⟩ := pr
        rw [hInv] at h
        obtain ⟨hshape, hsi1⟩ := il_start_si hInv (by simpa using hsi)
        have hlog1 : ∀ en ∈ log1, ∀ p2 t2 j pre eff,
            en = LogEntry.invoke p2 t2 j pre eff → j = 0 := by
          rcases hshape with rfl | ⟨pre, eff, rfl⟩
          · intro en hen
            exact absurd hen (by simp)
          · intro en hen p2 t2 j pre2 eff2 heq
            simp only [List.mem_singleton] at hen
            subst hen
            cases heq
            rfl
        by_cases hsp : e1.stop_propagation = true
        · simp only [hsp, if_true, Except.ok.injEq, Prod.mk.injEq] at h
          obtain ⟨rfl, rfl⟩ := h
          exact ⟨hlog1, hsi1⟩
        · simp only [hsp, if_false, Bool.false_eq_true] at h
          cases hRec : propagation_phase p aff w ty rest e1 with
          | error pc => rw [hRec] at h; exact absurd h (by simp)
          | ok pr2 =>
            obtain ⟨e2b, log2⟩ := pr2
            rw [hRec] at h
            simp only [Except.ok.injEq, Prod.mk.injEq] at h
            obtain ⟨rfl, rfl⟩ := h
            obtain ⟨hrec0, hrecsi⟩ := ih hRec hsi1
            refine ⟨?_, hrecsi⟩
            intro en hen p2 t2 j pre eff heq
            rcases List.mem_append.mp hen with hh | hh
            · exact hlog1 en hh p2 t2 j pre eff heq
            · exact hrec0 en hh p2 t2 j pre eff heq

theorem pp_si_split {p : Phase} {aff : ListenerPhase} {w : EventTargetWorld} {ty : String} :
    ∀ {targets : List Nat} {e e2 : Event} {log : List LogEntry},
    propagation_phase p aff w ty targets e = .ok (e2, log) →
    ∀ xs en ys, log = xs ++ en :: ys → stopImmediateAfter en = true →
    ∀ en2 ∈ ys, ∀ p2 t2 j pre eff, en2 = LogEntry.invoke p2 t2 j pre eff → j = 0 := by
  intro targets
  induction targets with
  | nil =>
    intro e e2 log h xs en ys hsplit
    simp only [propagation_phase, Except.ok.injEq, Prod.mk.injEq] at h
    obtain ⟨rfl, rfl⟩ := h
    exact absurd hsplit.symm (by simp)
  | cons t rest ih =>
    intro e e2 log h xs en ys hsplit hstop
    simp only [propagation_phase] at h
    cases hL : w.get_listeners_for t ty aff with
    | none =>
      simp only [hL] at h
      exact ih h xs en ys hsplit hstop
    | some ls =>
      simp only [hL] at h
      cases hInv : invoke_listeners p t 0 ls { e with current_target := some t } with
      | error pc => rw [hInv] at h; exact absurd h (by simp)
      | ok pr =>
        obtain ⟨e1, log1⟩ := pr
        rw [hInv] at h
        by_cases hsp : e1.stop_propagation = true
        · simp only [hsp, if_true, Except.ok.injEq, Prod.mk.injEq] at h
          obtain ⟨rfl, rfl⟩ := h
          have := il_last_si hInv xs en ys hsplit hstop
          subst this
          intro en2 hen2
          exact absurd hen2 (by simp)
        · simp only [hsp, if_false, Bool.false_eq_true] at h
          cases hRec : propagation_phase p aff w ty rest e1 with
          | error pc => rw [hRec] at h; exact absurd h (by simp)
          | ok pr2 =>
            obtain ⟨e2b, log2⟩ := pr2
            rw [hRec] at h
            simp only [Except.ok.injEq, Prod.mk.injEq] at h
            obtain ⟨rfl, rfl⟩ := h
            rcases split_middle xs log1 log2 ys en hsplit with ⟨tl, h3, h4⟩ | ⟨s, h3, h4⟩
            · have htl : tl = [] := il_last_si hInv xs en tl h3 hstop
              subst htl
              have hmem : en ∈ log1 := by rw [h3]; simp
              have hsi1 : e1.stop_immediate = true := il_postSI_final hInv en hmem hstop
              obtain ⟨hrec0, _⟩ := pp_si0 hRec hsi1
              intro en2 hen2
              rw [h4] at hen2
              simp only [List.nil_append] at hen2
              exact hrec0 en2 hen2
            · exact ih hRec s en ys h4 hstop

theorem pp_sp_split {p : Phase} {aff : ListenerPhase} {w : EventTargetWorld} {ty : String} :
    ∀ {targets : List Nat} {e e2 : Event} {log : List LogEntry},
    propagation_phase p aff w ty targets e = .ok (e2, log) →
    ∀ xs t i pre eff ys, log = xs ++ LogEntry.invoke p t i pre eff :: ys →
    (eff.stopPropagation || eff.stopImmediate) = true →
    ∀ en2 ∈ ys, ∃ j pre2 eff2, en2 = LogEntry.invoke p t j pre2 eff2 := by
  intro targets
  induction targets with
  | nil =>
    intro e e2 log h xs t i pre eff ys hsplit
    simp only [propagation_phase, Except.ok.injEq, Prod.mk.injEq] at h
    obtain ⟨rfl, rfl⟩ := h
    exact absurd hsplit.symm (by simp)
  | cons t0 rest ih =>
    intro e e2 log h xs t i pre eff ys hsplit hset
    simp only [propagation_phase] at h
    cases hL : w.get_listeners_for t0 ty aff with
    | none =>
      simp only [hL] at h
      exact ih h xs t i pre eff ys hsplit hset
    | some ls =>
      simp only [hL] at h
      cases hInv : invoke_listeners p t0 0 ls { e with current_target := some t0 } with
      | error pc => rw [hInv] at h; exact absurd h (by simp)
      | ok pr =>
        obtain ⟨e1, log1⟩ := pr
        rw [hInv] at h
        by_cases hsp : e1.stop_propagation = true
        · simp only [hsp, if_true, Except.ok.injEq, Prod.mk.injEq] at h
          obtain ⟨rfl, rfl⟩ := h
          have htt : t = t0 := by
            have hmem : LogEntry.invoke p t i pre eff ∈ log1 := by rw [hsplit]; simp
            obtain ⟨j, pre2, eff2, heq⟩ := il_tags hInv _ hmem
            cases heq
            rfl
          subst htt
          intro en2 hen2
          have hmem2 : en2 ∈ log1 := by
            rw [hsplit]
            exact List.mem_append.mpr (Or.inr (List.mem_cons_of_mem _ hen2))
          exact il_tags hInv en2 hmem2
        · simp only [hsp, if_false, Bool.false_eq_true] at h
          cases hRec : propagation_phase p aff w ty rest e1 with
          | error pc => rw [hRec] at h; exact absurd h (by simp)
          | ok pr2 =>
            obtain ⟨e2b, log2⟩ := pr2
            rw [hRec] at h
            simp only [Except.ok.injEq, Prod.mk.injEq] at h
            obtain ⟨rfl, rfl⟩ := h
            rcases split_middle xs log1 log2 ys (LogEntry.invoke p t i pre eff) hsplit
              with ⟨tl, h3, h4⟩ | ⟨s, h3, h4⟩
            · exfalso
              have hmem : LogEntry.invoke p t i pre eff ∈ log1 := by rw [h3]; simp
              have h1 : e1.stop_propagation = true := by
                rw [il_sp_or hInv]
                have : log1.any setsStopPropagation = true :=
                  List.any_eq_true.mpr ⟨_, hmem, by simpa [setsStopPropagation] using hset⟩
                simp [this]
              exact hsp h1
            · exact ih hRec s t i pre eff ys h4 hset

theorem pp_err {p : Phase} {aff : ListenerPhase} {w : EventTargetWorld} {ty : String} :
    ∀ {targets : List Nat} {e : Event} {pc : Panic},
    propagation_phase p aff w ty targets e = .error pc →
    pc = .listenerInvocationFailed := by
  intro targets
  induction targets with
  | nil =>
    intro e pc h
    simp [propagation_phase] at h
  | cons t rest ih =>
    intro e pc h
    simp only [propagation_phase] at h
    cases hL : w.get_listeners_for t ty aff with
    | none =>
      simp only [hL] at h
      exact ih h
    | some ls =>
      simp only [hL] at h
      cases hInv : invoke_listeners p t 0 ls { e with current_target := some t } with
      | error pc2 =>
        rw [hInv] at h
        simp only [Except.error.injEq] at h
        subst h
        exact il_err hInv
      | ok pr =>
        obtain ⟨e1, log1⟩ := pr
        rw [hInv] at h
        by_cases hsp : e1.stop_propagation = true
        · simp [hsp] at h
        · simp only [hsp, if_false, Bool.false_eq_true] at h
          cases hRec : propagation_phase p aff w ty rest e1 with
          | error pc2 =>
            rw [hRec] at h
            simp only [Except.error.injEq] at h
            subst h
            exact ih hRec
          | ok pr2 =>
            obtain ⟨e2b, log2⟩ := pr2
            rw [hRec] at h
            exact absurd h (by simp)

@[simp] theorem setPC_type (e : Event) (ph : Phase) (c : Option Nat) :
    ({ e with phase := ph, current_target := c } : Event).type_ = e.type_ := rfl

@[simp] theorem setPC_target (e : Event) (ph : Phase) (c : Option Nat) :
    ({ e with phase := ph, current_target := c } : Event).target = e.target := rfl

@[simp] theorem setPC_bubbles (e : Event) (ph : Phase) (c : Option Nat) :
    ({ e with phase := ph, current_target := c } : Event).bubbles = e.bubbles := rfl

@[simp] theorem setPC_sp (e : Event) (ph : Phase) (c : Option Nat) :
    ({ e with phase := ph, current_target := c } : Event).stop_propagation
      = e.stop_propagation := rfl

@[simp] theorem setPC_si (e : Event) (ph : Phase) (c : Option Nat) :
    ({ e with phase := ph, current_target := c } : Event).stop_immediate
      = e.stop_immediate := rfl

@[simp] theorem setPC_cancelled (e : Event) (ph : Phase) (c : Option Nat) :
    ({ e with phase := ph, current_target := c } : Event).cancelled = e.cancelled := rfl

@[simp] theorem setPC_dispatching (e : Event) (ph : Phase) (c : Option Nat) :
    ({ e with phase := ph, current_target := c } : Event).dispatching = e.dispatching := rfl

@[simp] theorem setPh_type (e : Event) (ph : Phase) :
    ({ e with phase := ph } : Event).type_ = e.type_ := rfl

@[simp] theorem setPh_target (e : Event) (ph : Phase) :
    ({ e with phase := ph } : Event).target = e.target := rfl

@[simp] theorem setPh_bubbles (e : Event) (ph : Phase) :
    ({ e with phase := ph } : Event).bubbles = e.bubbles := rfl

@[simp] theorem setPh_sp (e : Event) (ph : Phase) :
    ({ e with phase := ph } : Event).stop_propagation = e.stop_propagation := rfl

@[simp] theorem setPh_si (e : Event) (ph : Phase) :
    ({ e with phase := ph } : Event).stop_immediate = e.stop_immediate := rfl

@[simp] theorem setPh_cancelled (e : Event) (ph : Phase) :
    ({ e with phase := ph } : Event).cancelled = e.cancelled := rfl

@[simp] theorem setPh_dispatching (e : Event) (ph : Phase) :
    ({ e with phase := ph } : Event).dispatching = e.dispatching := rfl

theorem at_skip {w : EventTargetWorld} {ty : String} {target : Nat} {e : Event}
    (hsp : e.stop_propagation = true) :
    at_target_phase w ty target e = .ok (e, []) := by
  simp [at_target_phase, hsp]

theorem at_fields {w : EventTargetWorld} {ty : String} {target : Nat} {e e2 : Event}
    {log : List LogEntry} (h : at_target_phase w ty target e = .ok (e2, log)) :
    e2.type_ = e.type_ ∧ e2.bubbles = e.bubbles ∧ e2.dispatching = e.dispatching ∧
      e2.target = e.target := by
  simp only [at_target_phase] at h
  by_cases hsp : e.stop_propagation = true
  · rw [if_pos hsp] at h
    simp only [Except.ok.injEq, Prod.mk.injEq] at h
    obtain ⟨rfl, rfl⟩ := h
    exact ⟨rfl, rfl, rfl, rfl⟩
  · rw [if_neg hsp] at h
    cases hL : w.get_listeners target ty with
    | none =>
      simp only [hL, Except.ok.injEq, Prod.mk.injEq] at h
      obtain ⟨rfl, rfl⟩ := h
      exact ⟨rfl, rfl, rfl, rfl⟩
    | some ls =>
      simp only [hL] at h
      cases hInv : invoke_listeners .PhaseAtTarget target 0 ls
          { e with phase := Phase.PhaseAtTarget, current_target := some target } with
      | error pc => rw [hInv] at h; exact absurd h (by simp)
      | ok pr =>
        obtain ⟨e2b, ilog⟩ := pr
        rw [hInv] at h
        simp only [Except.ok.injEq, Prod.mk.injEq] at h
        obtain ⟨rfl, rfl⟩ := h
        obtain ⟨g1, g2, g3, _, _, g6⟩ := il_fields hInv
        simp only [setPC_type, setPC_bubbles, setPC_dispatching, setPC_target] at g1 g2 g3 g6
        exact ⟨g1, g2, g3, g6⟩

theorem at_pd_or {w : EventTargetWorld} {ty : String} {target : Nat} {e e2 : Event}
    {log : List LogEntry} (h : at_target_phase w ty target e = .ok (e2, log)) :
    e2.cancelled = (e.cancelled || log.any setsPreventDefault) := by
  simp only [at_target_phase] at h
  by_cases hsp : e.stop_propagation = true
  · rw [if_pos hsp] at h
    simp only [Except.ok.injEq, Prod.mk.injEq] at h
    obtain ⟨rfl, rfl⟩ := h
    simp
  · rw [if_neg hsp] at h
    cases hL : w.get_listeners target ty with
    | none =>
      simp only [hL, Except.ok.injEq, Prod.mk.injEq] at h
      obtain ⟨rfl, rfl⟩ := h
      simp [setsPreventDefault]
    | some ls =>
      simp only [hL] at h
      cases hInv : invoke_listeners .PhaseAtTarget target 0 ls
          { e with phase := Phase.PhaseAtTarget, current_target := some target } with
      | error pc => rw [hInv] at h; exact absurd h (by simp)
      | ok pr =>
        obtain ⟨e2b, ilog⟩ := pr
        rw [hInv] at h
        simp only [Except.ok.injEq, Prod.mk.injEq] at h
        obtain ⟨rfl, rfl⟩ := h
        have h1 := il_pd_or hInv
        rw [setPC_cancelled] at h1
        simpa [setsPreventDefault] using h1

theorem at_tags {w : EventTargetWorld} {ty : String} {target : Nat} {e e2 : Event}
    {log : List LogEntry} (h : at_target_phase w ty target e = .ok (e2, log)) :
    ∀ en ∈ log, en = LogEntry.phase .PhaseAtTarget ∨
      ∃ j pre eff, en = LogEntry.invoke .PhaseAtTarget target j pre eff := by
  simp only [at_target_phase] at h
  by_cases hsp : e.stop_propagation = true
  · rw [if_pos hsp] at h
    simp only [Except.ok.injEq, Prod.mk.injEq] at h
    obtain ⟨rfl, rfl⟩ := h
    intro en hen
    exact absurd hen (by simp)
  · rw [if_neg hsp] at h
    cases hL : w.get_listeners target ty with
    | none =>
      simp only [hL, Except.ok.injEq, Prod.mk.injEq] at h
      obtain ⟨rfl, rfl⟩ := h
      intro en hen
      simp only [List.mem_singleton] at hen
      exact Or.inl hen
    | some ls =>
      simp only [hL] at h
      cases hInv : invoke_listeners .PhaseAtTarget target 0 ls
          { e with phase := Phase.PhaseAtTarget, current_target := some target } with
      | error pc => rw [hInv] at h; exact absurd h (by simp)
      | ok pr =>
        obtain ⟨e2b, ilog⟩ := pr
        rw [hInv] at h
        simp only [Except.ok.injEq, Prod.mk.injEq] at h
        obtain ⟨rfl, rfl⟩ := h
        intro en hen
        simp only [List.mem_cons] at hen
        rcases hen with rfl | hen
        · exact Or.inl rfl
        · exact Or.inr (il_tags hInv en hen)

theorem at_marker_iff {w : EventTargetWorld} {ty : String} {target : Nat} {e e2 : Event}
    {log : List LogEntry} (h : at_target_phase w ty target e = .ok (e2, log)) :
    (LogEntry.phase .PhaseAtTarget ∈ log ↔ e.stop_propagation = false) := by
  simp only [at_target_phase] at h
  by_cases hsp : e.stop_propagation = true
  · rw [if_pos hsp] at h
    simp only [Except.ok.injEq, Prod.mk.injEq] at h
    obtain ⟨rfl, rfl⟩ := h
    simp [hsp]
  · have hspf : e.stop_propagation = false := by
      cases hv : e.stop_propagation
      · rfl
      · exact absurd hv hsp
    rw [if_neg hsp] at h
    cases hL : w.get_listeners target ty with
    | none =>
      simp only [hL, Except.ok.injEq, Prod.mk.injEq] at h
      obtain ⟨rfl, rfl⟩ := h
      simp [hspf]
    | some ls =>
      simp only [hL] at h
      cases hInv : invoke_listeners .PhaseAtTarget target 0 ls
          { e with phase := Phase.PhaseAtTarget, current_target := some target } with
      | error pc => rw [hInv] at h; exact absurd h (by simp)
      | ok pr =>
        obtain ⟨e2b, ilog⟩ := pr
        rw [hInv] at h
        simp only [Except.ok.injEq, Prod.mk.injEq] at h
        obtain ⟨rfl, rfl⟩ := h
        simp [hspf]

theorem at_si_split {w : EventTargetWorld} {ty : String} {target : Nat} {e e2 : Event}
    {log : List LogEntry} (h : at_target_phase w ty target e = .ok (e2, log)) :
    ∀ xs en ys, log = xs ++ en :: ys → stopImmediateAfter en = true → ys = [] := by
  simp only [at_target_phase] at h
  by_cases hsp : e.stop_propagation = true
  · rw [if_pos hsp] at h
    simp only [Except.ok.injEq, Prod.mk.injEq] at h
    obtain ⟨rfl, rfl⟩ := h
    intro xs en ys hsplit
    exact absurd hsplit.symm (by simp)
  · rw [if_neg hsp] at h
    cases hL : w.get_listeners target ty with
    | none =>
      simp only [hL, Except.ok.injEq, Prod.mk.injEq] at h
      obtain ⟨rfl, rfl⟩ := h
      intro xs en ys hsplit _
      have hlen := congrArg List.length hsplit
      simp at hlen
      have hys : ys.length = 0 := by omega
      exact List.eq_nil_of_length_eq_zero hys
    | some ls =>
      simp only [hL] at h
      cases hInv : invoke_listeners .PhaseAtTarget target 0 ls
          { e with phase := Phase.PhaseAtTarget, current_target := some target } with
      | error pc => rw [hInv] at h; exact absurd h (by simp)
      | ok pr =>
        obtain ⟨e2b, ilog⟩ := pr
        rw [hInv] at h
        simp only [Except.ok.injEq, Prod.mk.injEq] at h
        obtain ⟨rfl, rfl⟩ := h
        intro xs en ys hsplit hstop
        cases xs with
        | nil =>
          simp only [List.nil_append, List.cons.injEq] at hsplit
          obtain ⟨rfl, rfl⟩ := hsplit
          simp [stopImmediateAfter] at hstop
        | cons x xs2 =>
          simp only [List.cons_append, List.cons.injEq] at hsplit
          exact il_last_si hInv xs2 en ys hsplit.2 hstop

theorem at_pre_disp {w : EventTargetWorld} {ty : String} {target : Nat} {e e2 : Event}
    {log : List LogEntry} (h : at_target_phase w ty target e = .ok (e2, log)) :
    ∀ en ∈ log, ∀ p2 t2 j pre eff, en = LogEntry.invoke p2 t2 j pre eff →
      pre.dispatching = e.dispatching := by
  simp only [at_target_phase] at h
  by_cases hsp : e.stop_propagation = true
  · rw [if_pos hsp] at h
    simp only [Except.ok.injEq, Prod.mk.injEq] at h
    obtain ⟨rfl, rfl⟩ := h
    intro en hen
    exact absurd hen (by simp)
  · rw [if_neg hsp] at h
    cases hL : w.get_listeners target ty with
    | none =>
      simp only [hL, Except.ok.injEq, Prod.mk.injEq] at h
      obtain ⟨rfl, rfl⟩ := h
      intro en hen p2 t2 j pre eff heq
      simp only [List.mem_singleton] at hen
      subst hen
      cases heq
    | some ls =>
      simp only [hL] at h
      cases hInv : invoke_listeners .PhaseAtTarget target 0 ls
          { e with phase := Phase.PhaseAtTarget, current_target := some target } with
      | error pc => rw [hInv] at h; exact absurd h (by simp)
      | ok pr =>
        obtain ⟨e2b, ilog⟩ := pr
        rw [hInv] at h
        simp only [Except.ok.injEq, Prod.mk.injEq] at h
        obtain ⟨rfl, rfl⟩ := h
        intro en hen p2 t2 j pre eff heq
        simp only [List.mem_cons] at hen
        rcases hen with rfl | hen
        · cases heq
        · have hx := il_pre_disp hInv en hen p2 t2 j pre eff heq
          simpa using hx

theorem at_err {w : EventTargetWorld} {ty : String} {target : Nat} {e : Event} {pc : Panic}
    (h : at_target_phase w ty target e = .error pc) : pc = .listenerInvocationFailed := by
  simp only [at_target_phase] at h
  by_cases hsp : e.stop_propagation = true
  · simp [hsp] at h
  · rw [if_neg hsp] at h
    cases hL : w.get_listeners target ty with
    | none => simp [hL] at h
    | some ls =>
      simp only [hL] at h
      cases hInv : invoke_listeners .PhaseAtTarget target 0 ls
          { e with phase := Phase.PhaseAtTarget, current_target := some target } with
      | error pc2 =>
        rw [hInv] at h
        simp only [Except.error.injEq] at h
        subst h
        exact il_err hInv
      | ok pr =>
        obtain ⟨e2b, ilog⟩ := pr
        rw [hInv] at h
        exact absurd h (by simp)

theorem bb_guard_false {w : EventTargetWorld} {ty : String} {chain : List Nat} {e : Event}
    (hg : (e.bubbles && !e.stop_propagation) = false) :
    bubble_phase w ty chain e = .ok (e, []) := by
  simp [bubble_phase, hg]

theorem bb_fields {w : EventTargetWorld} {ty : String} {chain : List Nat} {e e2 : Event}
    {log : List LogEntry} (h : bubble_phase w ty chain e = .ok (e2, log)) :
    e2.type_ = e.type_ ∧ e2.bubbles = e.bubbles ∧ e2.dispatching = e.dispatching ∧
      e2.target = e.target := by
  simp only [bubble_phase] at h
  by_cases hg : (e.bubbles && !e.stop_propagation) = true
  · rw [if_pos hg] at h
    cases hPP : propagation_phase .PhaseBubbling .Bubbling w ty chain
        { e with phase := Phase.PhaseBubbling } with
    | error pc => rw [hPP] at h; exact absurd h (by simp)
    | ok pr =>
      obtain ⟨e2b, plog⟩ := pr
      rw [hPP] at h
      simp only [Except.ok.injEq, Prod.mk.injEq] at h
      obtain ⟨rfl, rfl⟩ := h
      obtain ⟨g1, g2, g3, _, g5⟩ := pp_fields hPP
      simp only [setPh_type, setPh_bubbles, setPh_dispatching, setPh_target] at g1 g2 g3 g5
      exact ⟨g1, g2, g3, g5⟩
  · rw [if_neg hg] at h
    simp only [Except.ok.injEq, Prod.mk.injEq] at h
    obtain ⟨rfl, rfl⟩ := h
    exact ⟨rfl, rfl, rfl, rfl⟩

theorem bb_pd_or {w : EventTargetWorld} {ty : String} {chain : List Nat} {e e2 : Event}
    {log : List LogEntry} (h : bubble_phase w ty chain e = .ok (e2, log)) :
    e2.cancelled = (e.cancelled || log.any setsPreventDefault) := by
  simp only [bubble_phase] at h
  by_cases hg : (e.bubbles && !e.stop_propagation) = true
  · rw [if_pos hg] at h
    cases hPP : propagation_phase .PhaseBubbling .Bubbling w ty chain
        { e with phase := Phase.PhaseBubbling } with
    | error pc => rw [hPP] at h; exact absurd h (by simp)
    | ok pr =>
      obtain ⟨e2b, plog⟩ := pr
      rw [hPP] at h
      simp only [Except.ok.injEq, Prod.mk.injEq] at h
      obtain ⟨rfl, rfl⟩ := h
      have h1 := pp_pd_or hPP
      rw [setPh_cancelled] at h1
      simpa [setsPreventDefault] using h1
  · rw [if_neg hg] at h
    simp only [Except.ok.injEq, Prod.mk.injEq] at h
    obtain ⟨rfl, rfl⟩ := h
    simp

theorem bb_tags {w : EventTargetWorld} {ty : String} {chain : List Nat} {e e2 : Event}
    {log : List LogEntry} (h : bubble_phase w ty chain e = .ok (e2, log)) :
    ∀ en ∈ log, en = LogEntry.phase .PhaseBubbling ∨
      ∃ t j pre eff, en = LogEntry.invoke .PhaseBubbling t j pre eff := by
  simp only [bubble_phase] at h
  by_cases hg : (e.bubbles && !e.stop_propagation) = true
  · rw [if_pos hg] at h
    cases hPP : propagation_phase .PhaseBubbling .Bubbling w ty chain
        { e with phase := Phase.PhaseBubbling } with
    | error pc => rw [hPP] at h; exact absurd h (by simp)
    | ok pr =>
      obtain ⟨e2b, plog⟩ := pr
      rw [hPP] at h
      simp only [Except.ok.injEq, Prod.mk.injEq] at h
      obtain ⟨rfl, rfl⟩ := h
      intro en hen
      simp only [List.mem_cons] at hen
      rcases hen with rfl | hen
      · exact Or.inl rfl
      · exact Or.inr (pp_tags hPP en hen)
  · rw [if_neg hg] at h
    simp only [Except.ok.injEq, Prod.mk.injEq] at h
    obtain ⟨rfl, rfl⟩ := h
    intro en hen
    exact absurd hen (by simp)

theorem bb_marker_iff {w : EventTargetWorld} {ty : String} {chain : List Nat} {e e2 : Event}
    {log : List LogEntry} (h : bubble_phase w ty chain e = .ok (e2, log)) :
    (LogEntry.phase .PhaseBubbling ∈ log ↔ (e.bubbles = true ∧ e.stop_propagation = false)) := by
  simp only [bubble_phase] at h
  by_cases hg : (e.bubbles && !e.stop_propagation) = true
  · rw [if_pos hg] at h
    have hg2 := hg
    simp only [Bool.and_eq_true, Bool.not_eq_true'] at hg2
    cases hPP : propagation_phase .PhaseBubbling .Bubbling w ty chain
        { e with phase := Phase.PhaseBubbling } with
    | error pc => rw [hPP] at h; exact absurd h (by simp)
    | ok pr =>
      obtain ⟨e2b, plog⟩ := pr
      rw [hPP] at h
      simp only [Except.ok.injEq, Prod.mk.injEq] at h
      obtain ⟨rfl, rfl⟩ := h
      simp [hg2.1, hg2.2]
  · rw [if_neg hg] at h
    simp only [Except.ok.injEq, Prod.mk.injEq] at h
    obtain ⟨rfl, rfl⟩ := h
    constructor
    · intro hmem
      exact absurd hmem (by simp)
    · intro hbs
      rw [hbs.1, hbs.2] at hg
      simp at hg

theorem bb_si_split {w : EventTargetWorld} {ty : String} {chain : List Nat} {e e2 : Event}
    {log : List LogEntry} (h : bubble_phase w ty chain e = .ok (e2, log)) :
    ∀ xs en ys, log = xs ++ en :: ys → stopImmediateAfter en = true →
    ∀ en2 ∈ ys, ∀ p2 t2 j pre eff, en2 = LogEntry.invoke p2 t2 j pre eff → j = 0 := by
  simp only [bubble_phase] at h
  by_cases hg : (e.bubbles && !e.stop_propagation) = true
  · rw [if_pos hg] at h
    cases hPP : propagation_phase .PhaseBubbling .Bubbling w ty chain
        { e with phase := Phase.PhaseBubbling } with
    | error pc => rw [hPP] at h; exact absurd h (by simp)
    | ok pr =>
      obtain ⟨e2b, plog⟩ := pr
      rw [hPP] at h
      simp only [Except.ok.injEq, Prod.mk.injEq] at h
      obtain ⟨rfl, rfl⟩ := h
      intro xs en ys hsplit hstop
      cases xs with
      | nil =>
        simp only [List.nil_append, List.cons.injEq] at hsplit
        obtain ⟨rfl, rfl⟩ := hsplit
        simp [stopImmediateAfter] at hstop
      | cons x xs2 =>
        simp only [List.cons_append, List.cons.injEq] at hsplit
        exact pp_si_split hPP xs2 en ys hsplit.2 hstop
  · rw [if_neg hg] at h
    simp only [Except.ok.injEq, Prod.mk.injEq] at h
    obtain ⟨rfl, rfl⟩ := h
    intro xs en ys hsplit
    exact absurd hsplit.symm (by simp)

theorem bb_pre_disp {w : EventTargetWorld} {ty : String} {chain : List Nat} {e e2 : Event}
    {log : List LogEntry} (h : bubble_phase w ty chain e = .ok (e2, log)) :
    ∀ en ∈ log, ∀ p2 t2 j pre eff, en = LogEntry.invoke p2 t2 j pre eff →
      pre.dispatching = e.dispatching := by
  simp only [bubble_phase] at h
  by_cases hg : (e.bubbles && !e.stop_propagation) = true
  · rw [if_pos hg] at h
    cases hPP : propagation_phase .PhaseBubbling .Bubbling w ty chain
        { e with phase := Phase.PhaseBubbling } with
    | error pc => rw [hPP] at h; exact absurd h (by simp)
    | ok pr =>
      obtain ⟨e2b, plog⟩ := pr
      rw [hPP] at h
      simp only [Except.ok.injEq, Prod.mk.injEq] at h
      obtain ⟨rfl, rfl⟩ := h
      intro en hen p2 t2 j pre eff heq
      simp only [List.mem_cons] at hen
      rcases hen with rfl | hen
      · cases heq
      · have hx := pp_pre_disp hPP en hen p2 t2 j pre eff heq
        simpa using hx
  · rw [if_neg hg] at h
    simp only [Except.ok.injEq, Prod.mk.injEq] at h
    obtain ⟨rfl, rfl⟩ := h
    intro en hen
    exact absurd hen (by simp)

theorem bb_err {w : EventTargetWorld} {ty : String} {chain : List Nat} {e : Event} {pc : Panic}
    (h : bubble_phase w ty chain e = .error pc) : pc = .listenerInvocationFailed := by
  simp only [bubble_phase] at h
  by_cases hg : (e.bubbles && !e.stop_propagation) = true
  · rw [if_pos hg] at h
    cases hPP : propagation_phase .PhaseBubbling .Bubbling w ty chain
        { e with phase := Phase.PhaseBubbling } with
    | error pc2 =>
      rw [hPP] at h
      simp only [Except.error.injEq] at h
      subst h
      exact pp_err hPP
    | ok pr =>
      obtain ⟨e2b, plog⟩ := pr
      rw [hPP] at h
      exact absurd h (by simp)
  · simp [hg] at h

theorem dd_ok {w : EventTargetWorld} {target : Nat} {pt : Option Nat} {e0 : Event}
    {b : Bool} {eF : Event} {log : List LogEntry}
    (h : dispatch_event w target pt e0 = .ok (b, eF, log)) :
    ∃ e3 capLog e4 tgtLog e5 bubLog,
      e0.dispatching = false ∧
      propagation_phase .PhaseCapturing .Capturing w e0.type_
          (dispatchChain w target).reverse
          { e0 with target := some (pt.getD target), dispatching := true,
                    phase := Phase.PhaseCapturing } = .ok (e3, capLog) ∧
      at_target_phase w e0.type_ target e3 = .ok (e4, tgtLog) ∧
      bubble_phase w e0.type_ (dispatchChain w target) e4 = .ok (e5, bubLog) ∧
      b = !e5.cancelled ∧
      eF = { e5 with dispatching := false, phase := Phase.PhaseNone,
                     current_target := none } ∧
      log = (dispatchChain w target).map LogEntry.acquire
              ++ LogEntry.phase .PhaseCapturing :: (capLog ++ tgtLog ++ bubLog)
              ++ ((dispatchChain w target).map LogEntry.release).reverse := by
  simp only [dispatch_event] at h
  by_cases hd : e0.dispatching = true
  · rw [if_pos hd] at h
    exact absurd h (by simp)
  · rw [if_neg hd] at h
    have hdf : e0.dispatching = false := by
      cases hv : e0.dispatching
      · rfl
      · exact absurd hv hd
    cases hCap : propagation_phase .PhaseCapturing .Capturing w e0.type_
        (dispatchChain w target).reverse
        { e0 with target := some (pt.getD target), dispatching := true,
                  phase := Phase.PhaseCapturing } with
    | error pc => simp only [hCap] at h; exact absurd h (by simp)
    | ok pr =>
      obtain ⟨e3, capLog⟩ := pr
      simp only [hCap] at h
      cases hTgt : at_target_phase w e0.type_ target e3 with
      | error pc => simp only [hTgt] at h; exact absurd h (by simp)
      | ok pr2 =>
        obtain ⟨e4, tgtLog⟩ := pr2
        simp only [hTgt] at h
        cases hBub : bubble_phase w e0.type_ (dispatchChain w target) e4 with
        | error pc => simp only [hBub] at h; exact absurd h (by simp)
        | ok pr3 =>
          obtain ⟨e5, bubLog⟩ := pr3
          simp only [hBub] at h
          simp only [Event.DefaultPrevented, Except.ok.injEq, Prod.mk.injEq] at h
          obtain ⟨hb, hF, hlog⟩ := h
          exact ⟨e3, capLog, e4, tgtLog, e5, bubLog, hdf, rfl, hTgt, hBub,
                 hb.symm, hF.symm, hlog.symm⟩

theorem dd_reentrant {w : EventTargetWorld} {target : Nat} {pt : Option Nat} {e0 : Event}
    (hd : e0.dispatching = true) :
    dispatch_event w target pt e0 = .error .reentrantDispatch := by
  simp [dispatch_event, hd]

theorem dd_err {w : EventTargetWorld} {target : Nat} {pt : Option Nat} {e0 : Event}
    {pc : Panic} (h : dispatch_event w target pt e0 = .error pc)
    (hd : e0.dispatching = false) : pc = .listenerInvocationFailed := by
  simp only [dispatch_event] at h
  rw [if_neg (by simp [hd])] at h
  cases hCap : propagation_phase .PhaseCapturing .Capturing w e0.type_
      (dispatchChain w target).reverse
      { e0 with target := some (pt.getD target), dispatching := true,
                phase := Phase.PhaseCapturing } with
  | error pc2 =>
    simp only [hCap] at h
    simp only [Except.error.injEq] at h
    subst h
    exact pp_err hCap
  | ok pr =>
    obtain ⟨e3, capLog⟩ := pr
    simp only [hCap] at h
    cases hTgt : at_target_phase w e0.type_ target e3 with
    | error pc2 =>
      simp only [hTgt] at h
      simp only [Except.error.injEq] at h
      subst h
      exact at_err hTgt
    | ok pr2 =>
      obtain ⟨e4, tgtLog⟩ := pr2
      simp only [hTgt] at h
      cases hBub : bubble_phase w e0.type_ (dispatchChain w target) e4 with
      | error pc2 =>
        simp only [hBub] at h
        simp only [Except.error.injEq] at h
        subst h
        exact bb_err hBub
      | ok pr3 =>
        obtain ⟨e5, bubLog⟩ := pr3
        simp only [hBub] at h
        exact absurd h (by simp)

/-- C1 (code bug): a listener invocation that returns an exception result makes
dispatch_event terminate abnormally through the is-ok assertion wrapped
around the invocation, instead of reporting the exception to the diagnostic
sink and continuing: no subsequent listener runs, no teardown happens and no
default-action boolean is returned. -/
theorem c1_listener_exception_aborts_dispatch :
    dispatch_event throwingWorld 0 none baseEvent = .error .listenerInvocationFailed := rfl

/-- C8: every dispatch call that returns normally leaves the event record reset
to idle: dispatching is false, phase is none and current-target is none,
whatever the listeners ran and whichever flags they set. -/
theorem c8_event_reset_on_return :
    ∀ (w : EventTargetWorld) (target : Nat) (pt : Option Nat) (e0 : Event)
      (b : Bool) (eF : Event) (log : List LogEntry),
      dispatch_event w target pt e0 = .ok (b, eF, log) →
      eF.dispatching = false ∧ eF.phase = Phase.PhaseNone ∧ eF.current_target = none := by
  intro w target pt e0 b eF log h
  obtain ⟨e3, capLog, e4, tgtLog, e5, bubLog, _, _, _, _, _, hF, _⟩ := dd_ok h
  subst hF
  exact ⟨rfl, rfl, rfl⟩

/-- Witness for C8 at a concrete dispatch call with no listeners. -/
theorem c8_event_reset_on_return_witness :
    ({ baseEvent with target := some 0 } : Event).dispatching = false ∧
      ({ baseEvent with target := some 0 } : Event).phase = Phase.PhaseNone ∧
      ({ baseEvent with target := some 0 } : Event).current_target = none :=
  c8_event_reset_on_return emptyWorld 0 none baseEvent true
    { baseEvent with target := some 0 }
    [LogEntry.phase .PhaseCapturing, LogEntry.phase .PhaseAtTarget] rfl

/-- C2 counterexample: dispatching an event record whose default-prevented flag
is already set at entry, in a world with no listeners, returns false even
though no listener set the flag during the call, so the returned boolean is
not equivalent to no-listener-set-default-prevented as the claim states. -/
theorem c2_counterexample_preset_flag :
    dispatch_event emptyWorld 0 none { baseEvent with cancelled := true } =
      .ok (false, { baseEvent with cancelled := true, target := some 0 },
           [LogEntry.phase .PhaseCapturing, LogEntry.phase .PhaseAtTarget]) ∧
    ([LogEntry.phase .PhaseCapturing, LogEntry.phase .PhaseAtTarget].any setsPreventDefault
      = false) ∧
    ¬ ((false = true) ↔
        ([LogEntry.phase .PhaseCapturing, LogEntry.phase .PhaseAtTarget].any setsPreventDefault
          = false)) := by
  refine ⟨rfl, rfl, ?_⟩
  intro hiff
  exact absurd (hiff.mpr rfl) (by simp)

/-- C2 (amended): dispatch returns the negation of the default-prevented state
of the event record at completion; when the flag is clear at entry this is
moreover equivalent to the fact that no invoked listener set
default-prevented during the call. -/
theorem c2_result_negates_default_prevented :
    ∀ (w : EventTargetWorld) (target : Nat) (pt : Option Nat) (e0 : Event)
      (b : Bool) (eF : Event) (log : List LogEntry),
      dispatch_event w target pt e0 = .ok (b, eF, log) →
      b = !eF.cancelled ∧
      (e0.cancelled = false → (b = true ↔ log.any setsPreventDefault = false)) := by
  intro w target pt e0 b eF log h
  obtain ⟨e3, capLog, e4, tgtLog, e5, bubLog, _, hCap, hTgt, hBub, hb, hF, hlog⟩ := dd_ok h
  constructor
  · rw [hb, hF]
  · intro hc0
    have h3 := pp_pd_or hCap
    have h4 := at_pd_or hTgt
    have h5 := bb_pd_or hBub
    have h3b : e3.cancelled = capLog.any setsPreventDefault := by
      rw [h3]
      simp [hc0]
    have hA : ((dispatchChain w target).map LogEntry.acquire).any setsPreventDefault
        = false := by
      rw [List.any_eq_false]
      intro x hx
      obtain ⟨a, _, rfl⟩ := List.mem_map.mp hx
      simp [setsPreventDefault]
    have hR : (((dispatchChain w target).map LogEntry.release).reverse).any setsPreventDefault
        = false := by
      rw [List.any_eq_false]
      intro x hx
      rw [List.mem_reverse] at hx
      obtain ⟨a, _, rfl⟩ := List.mem_map.mp hx
      simp [setsPreventDefault]
    subst hlog
    rw [hb, h5, h4, h3b]
    simp [List.any_append, List.any_cons, hA, hR, setsPreventDefault, Bool.or_eq_false_iff,
      Bool.not_eq_true', and_assoc]

/-- Witness for C2 (amended) at a concrete dispatch call with no listeners. -/
theorem c2_result_negates_default_prevented_witness :
    (true = !({ baseEvent with target := some 0 } : Event).cancelled) ∧
      (baseEvent.cancelled = false →
        ((true = true) ↔
          ([LogEntry.phase .PhaseCapturing, LogEntry.phase .PhaseAtTarget].any
            setsPreventDefault = false))) :=
  c2_result_negates_default_prevented emptyWorld 0 none baseEvent true
    { baseEvent with target := some 0 }
    [LogEntry.phase .PhaseCapturing, LogEntry.phase .PhaseAtTarget] rfl

/-- C6: dispatching an event record whose dispatching flag is already set
terminates abnormally through the reentrancy assertion, before any state is
touched; when the flag is false at entry that assertion never fires, and
every listener invoked during a normal dispatch observes dispatching set to
true for the duration of the call. -/
theorem c6_reentrancy_guard :
    ∀ (w : EventTargetWorld) (target : Nat) (pt : Option Nat) (e0 : Event),
      (e0.dispatching = true →
        dispatch_event w target pt e0 = .error .reentrantDispatch) ∧
      (e0.dispatching = false →
        dispatch_event w target pt e0 ≠ .error .reentrantDispatch ∧
        ∀ b eF log, dispatch_event w target pt e0 = .ok (b, eF, log) →
          ∀ en ∈ log, ∀ p t i pre eff, en = LogEntry.invoke p t i pre eff →
            pre.dispatching = true) := by
  intro w target pt e0
  refine ⟨fun hd => dd_reentrant hd, fun hd => ⟨?_, ?_⟩⟩
  · intro hbad
    exact absurd (dd_err hbad hd) (by simp)
  · intro b eF log h en hen p t i pre eff heq
    obtain ⟨e3, capLog, e4, tgtLog, e5, bubLog, _, hCap, hTgt, hBub, _, _, hlog⟩ := dd_ok h
    have hd3 : e3.dispatching = true := by
      have hx := (pp_fields hCap).2.2.1
      simpa using hx
    have hd4 : e4.dispatching = true := ((at_fields hTgt).2.2.1).trans hd3
    subst hlog
    rcases List.mem_append.mp hen with h1 | hRm
    · rcases List.mem_append.mp h1 with hA | h2
      · obtain ⟨a, _, rfl⟩ := List.mem_map.mp hA
        exact absurd heq (by simp)
      · rcases List.mem_cons.mp h2 with rfl | h3
        · exact absurd heq (by simp)
        · rcases List.mem_append.mp h3 with h4 | hbub
          · rcases List.mem_append.mp h4 with hcap | htgt
            · have hx := pp_pre_disp hCap en hcap p t i pre eff heq
              simpa using hx
            · have hx := at_pre_disp hTgt en htgt p t i pre eff heq
              exact hx.trans hd3
          · have hx := bb_pre_disp hBub en hbub p t i pre eff heq
            exact hx.trans hd4
    · rw [List.mem_reverse] at hRm
      obtain ⟨a, _, rfl⟩ := List.mem_map.mp hRm
      exact absurd heq (by simp)

/-- Witness for C6: the reentrancy abort at a concrete already-dispatching
record, and the guarantees at a concrete idle record. -/
theorem c6_reentrancy_guard_witness :
    dispatch_event emptyWorld 0 none { baseEvent with dispatching := true } =
        .error .reentrantDispatch ∧
      (dispatch_event emptyWorld 0 none baseEvent ≠ .error .reentrantDispatch ∧
        ∀ b eF log, dispatch_event emptyWorld 0 none baseEvent = .ok (b, eF, log) →
          ∀ en ∈ log, ∀ p t i pre eff, en = LogEntry.invoke p t i pre eff →
            pre.dispatching = true) :=
  ⟨(c6_reentrancy_guard emptyWorld 0 none { baseEvent with dispatching := true }).1 rfl,
   (c6_reentrancy_guard emptyWorld 0 none baseEvent).2 rfl⟩

/-- C10: CreateDocumentType returns InvalidCharacter exactly when the qualified
name is classified as an invalid XML name, NamespaceError exactly when it is
a valid XML name that is not a valid qualified name, and otherwise succeeds
with a document type carrying exactly the given qualified name, public id
and system id; no other error is returned. -/
theorem c10_create_document_type_classification :
    ∀ (xml_name_type : String → XMLNameKind) (qname pubid sysid : String),
      (xml_name_type qname = .InvalidXMLName →
        CreateDocumentType xml_name_type qname pubid sysid = .error .InvalidCharacter) ∧
      (xml_name_type qname = .Name →
        CreateDocumentType xml_name_type qname pubid sysid = .error .NamespaceError) ∧
      (xml_name_type qname = .QName →
        CreateDocumentType xml_name_type qname pubid sysid =
          .ok { name := qname, public_id := some pubid, system_id := some sysid }) := by
  intro xnt qname pubid sysid
  refine ⟨?_, ?_, ?_⟩ <;> intro hx <;> simp [CreateDocumentType, hx]

/-- Witness for C10 with a concrete classifier accepting every qualified
name. -/
theorem c10_create_document_type_classification_witness :
    CreateDocumentType (fun _ => XMLNameKind.QName) ("doc") ("p") ("s") =
      .ok { name := "doc", public_id := some "p", system_id := some "s" } :=
  (c10_create_document_type_classification (fun _ => XMLNameKind.QName)
    ("doc") ("p") ("s")).2.2 rfl

/-- C7: the step log of every normal dispatch is exactly the liveness-registry
acquisitions of the chain members in chain order, then steps containing no
registry operation, then the releases in exactly the reverse of the
acquisition order, so every hold taken at chain construction is released
before dispatch returns, last acquired first. -/
theorem c7_registry_release_lifo :
    ∀ (w : EventTargetWorld) (target : Nat) (pt : Option Nat) (e0 : Event)
      (b : Bool) (eF : Event) (log : List LogEntry),
      dispatch_event w target pt e0 = .ok (b, eF, log) →
      ∃ mid, log = (dispatchChain w target).map LogEntry.acquire ++ mid
                ++ ((dispatchChain w target).map LogEntry.release).reverse ∧
        ∀ en ∈ mid, (∀ t, en ≠ LogEntry.acquire t) ∧ (∀ t, en ≠ LogEntry.release t) := by
  intro w target pt e0 b eF log h
  obtain ⟨e3, capLog, e4, tgtLog, e5, bubLog, _, hCap, hTgt, hBub, _, _, hlog⟩ := dd_ok h
  refine ⟨LogEntry.phase .PhaseCapturing :: (capLog ++ tgtLog ++ bubLog), hlog, ?_⟩
  intro en hen
  rcases List.mem_cons.mp hen with rfl | hen2
  · exact ⟨fun t => by simp, fun t => by simp⟩
  · rcases List.mem_append.mp hen2 with h12 | hbub
    · rcases List.mem_append.mp h12 with hcap | htgt
      · obtain ⟨t2, j, pre, eff, rfl⟩ := pp_tags hCap en hcap
        exact ⟨fun t => by simp, fun t => by simp⟩
      · rcases at_tags hTgt en htgt with rfl | ⟨j, pre, eff, rfl⟩
        · exact ⟨fun t => by simp, fun t => by simp⟩
        · exact ⟨fun t => by simp, fun t => by simp⟩
    · rcases bb_tags hBub en hbub with rfl | ⟨t2, j, pre, eff, rfl⟩
      · exact ⟨fun t => by simp, fun t => by simp⟩
      · exact ⟨fun t => by simp, fun t => by simp⟩

/-- Witness for C7 at a concrete dispatch call over a two-member chain: the
acquisitions are in chain order and the releases in reverse order. -/
theorem c7_registry_release_lifo_witness :
    ∃ mid, ([LogEntry.acquire 1, LogEntry.acquire 2, LogEntry.phase .PhaseCapturing,
             LogEntry.phase .PhaseAtTarget, LogEntry.release 2, LogEntry.release 1]
              : List LogEntry)
        = (dispatchChain chainWorld 0).map LogEntry.acquire ++ mid
            ++ ((dispatchChain chainWorld 0).map LogEntry.release).reverse ∧
      ∀ en ∈ mid, (∀ t, en ≠ LogEntry.acquire t) ∧ (∀ t, en ≠ LogEntry.release t) :=
  c7_registry_release_lifo chainWorld 0 none baseEvent true
    { baseEvent with target := some 0 }
    [LogEntry.acquire 1, LogEntry.acquire 2, LogEntry.phase .PhaseCapturing,
     LogEntry.phase .PhaseAtTarget, LogEntry.release 2, LogEntry.release 1] rfl

/-- C5: the bubbling phase is entered exactly when the bubbles flag is set and
stop-propagation is not set at that point, and a dispatch of a non-bubbling
event never invokes any bubbling-phase listener on any chain member. -/
theorem c5_bubbling_requires_bubbles_flag :
    (∀ (w : EventTargetWorld) (ty : String) (chain : List Nat) (e eF : Event)
       (log : List LogEntry), bubble_phase w ty chain e = .ok (eF, log) →
       (LogEntry.phase .PhaseBubbling ∈ log ↔
         (e.bubbles = true ∧ e.stop_propagation = false)))
    ∧ (∀ (w : EventTargetWorld) (target : Nat) (pt : Option Nat) (e0 : Event)
         (b : Bool) (eF : Event) (log : List LogEntry),
         dispatch_event w target pt e0 = .ok (b, eF, log) → e0.bubbles = false →
         ∀ t i pre eff, LogEntry.invoke .PhaseBubbling t i pre eff ∉ log) := by
  constructor
  · intro w ty chain e eF log h
    exact bb_marker_iff h
  · intro w target pt e0 b eF log h hnb t i pre eff hmem
    obtain ⟨e3, capLog, e4, tgtLog, e5, bubLog, _, hCap, hTgt, hBub, _, _, hlog⟩ := dd_ok h
    have h3 : e3.bubbles = false := by
      have hx := (pp_fields hCap).2.1
      simp at hx
      rw [hx]
      exact hnb
    have h4 : e4.bubbles = false := ((at_fields hTgt).2.1).trans h3
    have hskip := @bb_guard_false w e0.type_ (dispatchChain w target) e4 (by simp [h4])
    have hkey := hBub.symm.trans hskip
    simp only [Except.ok.injEq, Prod.mk.injEq] at hkey
    obtain ⟨-, hbub0⟩ := hkey
    subst hbub0
    subst hlog
    rcases List.mem_append.mp hmem with h1 | hRm
    · rcases List.mem_append.mp h1 with hA | h2
      · obtain ⟨a, _, ha⟩ := List.mem_map.mp hA
        simp at ha
      · rcases List.mem_cons.mp h2 with heq | h3m
        · simp at heq
        · rcases List.mem_append.mp h3m with h4m | hbub
          · rcases List.mem_append.mp h4m with hcap | htgt
            · obtain ⟨t2, j, pre2, eff2, heq⟩ := pp_tags hCap _ hcap
              simp at heq
            · rcases at_tags hTgt _ htgt with heq | ⟨j, pre2, eff2, heq⟩ <;> simp at heq
          · exact absurd hbub (by simp)
    · rw [List.mem_reverse] at hRm
      obtain ⟨a, _, ha⟩ := List.mem_map.mp hRm
      simp at ha

/-- Witness for C5: a concrete bubble-phase run of a bubbling event with no
stop flags, and a concrete non-bubbling dispatch with an empty log of
bubbling invocations. -/
theorem c5_bubbling_requires_bubbles_flag_witness :
    (LogEntry.phase .PhaseBubbling ∈ ([LogEntry.phase .PhaseBubbling] : List LogEntry) ↔
      (({ baseEvent with bubbles := true } : Event).bubbles = true ∧
        ({ baseEvent with bubbles := true } : Event).stop_propagation = false)) ∧
    (∀ t i pre eff, LogEntry.invoke .PhaseBubbling t i pre eff ∉
        ([LogEntry.phase .PhaseCapturing, LogEntry.phase .PhaseAtTarget] : List LogEntry)) :=
  ⟨c5_bubbling_requires_bubbles_flag.1 emptyWorld ("ev") [] { baseEvent with bubbles := true }
      { baseEvent with bubbles := true, phase := Phase.PhaseBubbling }
      [LogEntry.phase .PhaseBubbling] rfl,
   c5_bubbling_requires_bubbles_flag.2 emptyWorld 0 none baseEvent true
      { baseEvent with target := some 0 }
      [LogEntry.phase .PhaseCapturing, LogEntry.phase .PhaseAtTarget] rfl rfl⟩

/-- C3: when a capturing-phase listener invocation carries an effect that sets
stop-propagation, every listener invocation after it in the log of a normal
dispatch is a capturing-phase invocation at the same chain member: no
further ancestor is visited in the capturing phase and no target-phase or
bubbling-phase listener is invoked. -/
theorem c3_capture_stop_propagation_halts_delivery :
    ∀ (w : EventTargetWorld) (target : Nat) (pt : Option Nat) (e0 : Event)
      (b : Bool) (eF : Event) (log xs : List LogEntry) (t i : Nat) (pre : Event)
      (eff : ListenerEffect) (ys : List LogEntry),
      dispatch_event w target pt e0 = .ok (b, eF, log) →
      log = xs ++ LogEntry.invoke .PhaseCapturing t i pre eff :: ys →
      (eff.stopPropagation || eff.stopImmediate) = true →
      ∀ en ∈ ys, ∀ p2 t2 j pre2 eff2, en = LogEntry.invoke p2 t2 j pre2 eff2 →
        p2 = .PhaseCapturing ∧ t2 = t := by
  intro w target pt e0 b eF log xs t i pre eff ys h hsplit hset
  obtain ⟨e3, capLog, e4, tgtLog, e5, bubLog, _, hCap, hTgt, hBub, _, _, hlog⟩ := dd_ok h
  have hkey : ((dispatchChain w target).map LogEntry.acquire
        ++ [LogEntry.phase .PhaseCapturing]) ++ capLog
        ++ (tgtLog ++ bubLog ++ ((dispatchChain w target).map LogEntry.release).reverse)
      = xs ++ LogEntry.invoke .PhaseCapturing t i pre eff :: ys := by
    rw [← hsplit, hlog]
    simp
  have hu : LogEntry.invoke .PhaseCapturing t i pre eff ∉
      ((dispatchChain w target).map LogEntry.acquire
        ++ [LogEntry.phase .PhaseCapturing]) := by
    intro hmem
    rcases List.mem_append.mp hmem with hA | hM
    · obtain ⟨a, _, ha⟩ := List.mem_map.mp hA
      simp at ha
    · simp at hM
  have hw : LogEntry.invoke .PhaseCapturing t i pre eff ∉
      (tgtLog ++ bubLog ++ ((dispatchChain w target).map LogEntry.release).reverse) := by
    intro hmem
    rcases List.mem_append.mp hmem with h1 | hRm
    · rcases List.mem_append.mp h1 with htgt | hbub
      · rcases at_tags hTgt _ htgt with heq | ⟨j, pre2, eff2, heq⟩ <;> simp at heq
      · rcases bb_tags hBub _ hbub with heq | ⟨t2, j, pre2, eff2, heq⟩ <;> simp at heq
    · rw [List.mem_reverse] at hRm
      obtain ⟨a, _, ha⟩ := List.mem_map.mp hRm
      simp at ha
  obtain ⟨xs2, ys2, hv, hys⟩ := locate_mem hkey hu hw
  have hsp3 : e3.stop_propagation = true := by
    rw [pp_sp_or hCap]
    have hany : capLog.any setsStopPropagation = true :=
      List.any_eq_true.mpr ⟨LogEntry.invoke .PhaseCapturing t i pre eff,
        by rw [hv]; simp, by simpa [setsStopPropagation] using hset⟩
    simp [hany]
  have htskip := @at_skip w e0.type_ target e3 hsp3
  have hkey2 := hTgt.symm.trans htskip
  simp only [Except.ok.injEq, Prod.mk.injEq] at hkey2
  obtain ⟨he43, htgt0⟩ := hkey2
  have hsp4 : e4.stop_propagation = true := by rw [he43]; exact hsp3
  have hbskip := @bb_guard_false w e0.type_ (dispatchChain w target) e4 (by simp [hsp4])
  have hkey3 := hBub.symm.trans hbskip
  simp only [Except.ok.injEq, Prod.mk.injEq] at hkey3
  obtain ⟨-, hbub0⟩ := hkey3
  intro en hen p2 t2 j pre2 eff2 heq
  rw [hys, htgt0, hbub0] at hen
  simp only [List.nil_append] at hen
  rcases List.mem_append.mp hen with h1 | hRm
  · obtain ⟨j3, pre3, eff3, heq2⟩ := pp_sp_split hCap xs2 t i pre eff ys2 hv hset en h1
    rw [heq] at heq2
    injection heq2 with hp ht _ _ _
    exact ⟨hp, ht⟩
  · subst heq
    rw [List.mem_reverse] at hRm
    obtain ⟨a, _, ha⟩ := List.mem_map.mp hRm
    simp at ha

/-- Witness for C3 at a concrete dispatch where the single ancestor carries a
capturing listener setting stop-propagation followed by a second listener:
the invocation after the setter is still a capturing invocation at the same
chain member. -/
theorem c3_capture_stop_propagation_halts_delivery_witness :
    Phase.PhaseCapturing = Phase.PhaseCapturing ∧ 1 = 1 :=
  c3_capture_stop_propagation_halts_delivery spWorld 0 none baseEvent false
    { baseEvent with target := some 0, stop_propagation := true, cancelled := true }
    [LogEntry.acquire 1, LogEntry.phase .PhaseCapturing,
     LogEntry.invoke .PhaseCapturing 1 0 spWitnessPre spEffect,
     LogEntry.invoke .PhaseCapturing 1 1 spWitnessPre2 pdEffect, LogEntry.release 1]
    [LogEntry.acquire 1, LogEntry.phase .PhaseCapturing] 1 0 spWitnessPre spEffect
    [LogEntry.invoke .PhaseCapturing 1 1 spWitnessPre2 pdEffect, LogEntry.release 1]
    rfl rfl rfl
    (LogEntry.invoke .PhaseCapturing 1 1 spWitnessPre2 pdEffect) (by simp)
    .PhaseCapturing 1 1 spWitnessPre2 pdEffect rfl

/-- C4: after a listener invocation that leaves stop-immediate-propagation set,
no later-registered listener at the same target is invoked in the same
phase during a normal dispatch; and the at-target and bubbling phases are
entered based only on stop-propagation (and the bubbles flag), so the
stop-immediate flag by itself never prevents a later phase. -/
theorem c4_stop_immediate_scope :
    (∀ (w : EventTargetWorld) (target : Nat) (pt : Option Nat) (e0 : Event)
       (b : Bool) (eF : Event) (log xs : List LogEntry) (p : Phase) (t i : Nat)
       (pre : Event) (eff : ListenerEffect) (ys : List LogEntry),
       dispatch_event w target pt e0 = .ok (b, eF, log) →
       log = xs ++ LogEntry.invoke p t i pre eff :: ys →
       (applyEffect eff pre).stop_immediate = true →
       ∀ en ∈ ys, ∀ j pre2 eff2, en = LogEntry.invoke p t j pre2 eff2 → j ≤ i)
    ∧ (∀ (w : EventTargetWorld) (ty : String) (target : Nat) (e eF : Event)
         (log : List LogEntry), at_target_phase w ty target e = .ok (eF, log) →
         (LogEntry.phase .PhaseAtTarget ∈ log ↔ e.stop_propagation = false))
    ∧ (∀ (w : EventTargetWorld) (ty : String) (chain : List Nat) (e eF : Event)
         (log : List LogEntry), bubble_phase w ty chain e = .ok (eF, log) →
         (LogEntry.phase .PhaseBubbling ∈ log ↔
           (e.bubbles = true ∧ e.stop_propagation = false))) := by
  refine ⟨?_, ?_, ?_⟩
  · intro w target pt e0 b eF log xs p t i pre eff ys h hsplit hstop
    obtain ⟨e3, capLog, e4, tgtLog, e5, bubLog, _, hCap, hTgt, hBub, _, _, hlog⟩ := dd_ok h
    have hstop2 : stopImmediateAfter (LogEntry.invoke p t i pre eff) = true := by
      simpa [stopImmediateAfter] using hstop
    have hmem0 : LogEntry.invoke p t i pre eff ∈ log := by rw [hsplit]; simp
    rw [hlog] at hmem0
    rcases List.mem_append.mp hmem0 with h1 | hRm
    · rcases List.mem_append.mp h1 with hA | h2
      · obtain ⟨a, _, ha⟩ := List.mem_map.mp hA
        simp at ha
      · rcases List.mem_cons.mp h2 with heq0 | h3
        · simp at heq0
        · rcases List.mem_append.mp h3 with h4 | hbubm
          · rcases List.mem_append.mp h4 with hcapm | htgtm
            · obtain ⟨tc, jc, prec, effc, heqc⟩ := pp_tags hCap _ hcapm
              injection heqc with hp htc hjc hprec heffc
              subst hp
              have hkey : ((dispatchChain w target).map LogEntry.acquire
                    ++ [LogEntry.phase .PhaseCapturing]) ++ capLog
                    ++ (tgtLog ++ bubLog
                        ++ ((dispatchChain w target).map LogEntry.release).reverse)
                  = xs ++ LogEntry.invoke .PhaseCapturing t i pre eff :: ys := by
                rw [← hsplit, hlog]
                simp
              have hu : LogEntry.invoke .PhaseCapturing t i pre eff ∉
                  ((dispatchChain w target).map LogEntry.acquire
                    ++ [LogEntry.phase .PhaseCapturing]) := by
                intro hmem
                rcases List.mem_append.mp hmem with hA2 | hM2
                · obtain ⟨a, _, ha⟩ := List.mem_map.mp hA2
                  simp at ha
                · simp at hM2
              have hw : LogEntry.invoke .PhaseCapturing t i pre eff ∉
                  (tgtLog ++ bubLog
                    ++ ((dispatchChain w target).map LogEntry.release).reverse) := by
                intro hmem
                rcases List.mem_append.mp hmem with h5 | hR2
                · rcases List.mem_append.mp h5 with h6 | h7
                  · rcases at_tags hTgt _ h6 with heq2 | ⟨j2, pre3, eff3, heq2⟩ <;>
                      simp at heq2
                  · rcases bb_tags hBub _ h7 with heq2 | ⟨t3, j2, pre3, eff3, heq2⟩ <;>
                      simp at heq2
                · rw [List.mem_reverse] at hR2
                  obtain ⟨a, _, ha⟩ := List.mem_map.mp hR2
                  simp at ha
              obtain ⟨xs2, ys2, hv, hys⟩ := locate_mem hkey hu hw
              intro en hen j pre2 eff2 heq
              subst heq
              rw [hys] at hen
              rcases List.mem_append.mp hen with h5 | h6
              · have hz := pp_si_split hCap xs2 _ ys2 hv hstop2 _ h5
                  .PhaseCapturing t j pre2 eff2 rfl
                omega
              · rcases List.mem_append.mp h6 with h7 | hR2
                · rcases List.mem_append.mp h7 with h8 | h9
                  · rcases at_tags hTgt _ h8 with heq2 | ⟨j2, pre3, eff3, heq2⟩ <;>
                      simp at heq2
                  · rcases bb_tags hBub _ h9 with heq2 | ⟨t3, j2, pre3, eff3, heq2⟩ <;>
                      simp at heq2
                · rw [List.mem_reverse] at hR2
                  obtain ⟨a, _, ha⟩ := List.mem_map.mp hR2
                  simp at ha
            · rcases at_tags hTgt _ htgtm with heq0 | ⟨jt, pret, efft, heqt⟩
              · simp at heq0
              · injection heqt with hp htt hjt hpret hefft
                subst hp
                have hkey : (((dispatchChain w target).map LogEntry.acquire
                      ++ [LogEntry.phase .PhaseCapturing]) ++ capLog) ++ tgtLog
                      ++ (bubLog
                          ++ ((dispatchChain w target).map LogEntry.release).reverse)
                    = xs ++ LogEntry.invoke .PhaseAtTarget t i pre eff :: ys := by
                  rw [← hsplit, hlog]
                  simp
                have hu : LogEntry.invoke .PhaseAtTarget t i pre eff ∉
                    (((dispatchChain w target).map LogEntry.acquire
                      ++ [LogEntry.phase .PhaseCapturing]) ++ capLog) := by
                  intro hmem
                  rcases List.mem_append.mp hmem with h5 | hcap2
                  · rcases List.mem_append.mp h5 with hA2 | hM2
                    · obtain ⟨a, _, ha⟩ := List.mem_map.mp hA2
                      simp at ha
                    · simp at hM2
                  · obtain ⟨t3, j2, pre3, eff3, heq2⟩ := pp_tags hCap _ hcap2
                    simp at heq2
                have hw : LogEntry.invoke .PhaseAtTarget t i pre eff ∉
                    (bubLog
                      ++ ((dispatchChain w target).map LogEntry.release).reverse) := by
                  intro hmem
                  rcases List.mem_append.mp hmem with h5 | hR2
                  · rcases bb_tags hBub _ h5 with heq2 | ⟨t3, j2, pre3, eff3, heq2⟩ <;>
                      simp at heq2
                  · rw [List.mem_reverse] at hR2
                    obtain ⟨a, _, ha⟩ := List.mem_map.mp hR2
                    simp at ha
                obtain ⟨xs2, ys2, hv, hys⟩ := locate_mem hkey hu hw
                have hys2 := at_si_split hTgt xs2 _ ys2 hv hstop2
                subst hys2
                intro en hen j pre2 eff2 heq
                subst heq
                rw [hys] at hen
                simp only [List.nil_append] at hen
                rcases List.mem_append.mp hen with h8 | hR2
                · rcases bb_tags hBub _ h8 with heq2 | ⟨t3, j2, pre3, eff3, heq2⟩ <;>
                    simp at heq2
                · rw [List.mem_reverse] at hR2
                  obtain ⟨a, _, ha⟩ := List.mem_map.mp hR2
                  simp at ha
          · rcases bb_tags hBub _ hbubm with heq0 | ⟨tb, jb, preb, effb, heqb⟩
            · simp at heq0
            · injection heqb with hp htb hjb hpreb heffb
              subst hp
              have hkey : ((((dispatchChain w target).map LogEntry.acquire
                    ++ [LogEntry.phase .PhaseCapturing]) ++ capLog) ++ tgtLog) ++ bubLog
                    ++ ((dispatchChain w target).map LogEntry.release).reverse
                  = xs ++ LogEntry.invoke .PhaseBubbling t i pre eff :: ys := by
                rw [← hsplit, hlog]
                simp
              have hu : LogEntry.invoke .PhaseBubbling t i pre eff ∉
                  ((((dispatchChain w target).map LogEntry.acquire
                    ++ [LogEntry.phase .PhaseCapturing]) ++ capLog) ++ tgtLog) := by
                intro hmem
                rcases List.mem_append.mp hmem with h5 | htgt2
                · rcases List.mem_append.mp h5 with h6 | hcap2
                  · rcases List.mem_append.mp h6 with hA2 | hM2
                    · obtain ⟨a, _, ha⟩ := List.mem_map.mp hA2
                      simp at ha
                    · simp at hM2
                  · obtain ⟨t3, j2, pre3, eff3, heq2⟩ := pp_tags hCap _ hcap2
                    simp at heq2
                · rcases at_tags hTgt _ htgt2 with heq2 | ⟨j2, pre3, eff3, heq2⟩ <;>
                    simp at heq2
              have hw : LogEntry.invoke .PhaseBubbling t i pre eff ∉
                  ((dispatchChain w target).map LogEntry.release).reverse := by
                intro hmem
                rw [List.mem_reverse] at hmem
                obtain ⟨a, _, ha⟩ := List.mem_map.mp hmem
                simp at ha
              obtain ⟨xs2, ys2, hv, hys⟩ := locate_mem hkey hu hw
              intro en hen j pre2 eff2 heq
              subst heq
              rw [hys] at hen
              rcases List.mem_append.mp hen with h5 | hR2
              · have hz := bb_si_split hBub xs2 _ ys2 hv hstop2 _ h5
                  .PhaseBubbling t j pre2 eff2 rfl
                omega
              · rw [List.mem_reverse] at hR2
                obtain ⟨a, _, ha⟩ := List.mem_map.mp hR2
                simp at ha
    · rw [List.mem_reverse] at hRm
      obtain ⟨a, _, ha⟩ := List.mem_map.mp hRm
      simp at ha
  · intro w ty target e eF log h
    exact at_marker_iff h
  · intro w ty chain e eF log h
    exact bb_marker_iff h

/-- Witness for C4: a concrete at-target listener sets
stop-immediate-propagation and the rest of the log is empty; concrete
at-target and bubble phase runs of an event carrying only the
stop-immediate flag are still entered. -/
theorem c4_stop_immediate_scope_witness :
    (∀ en ∈ ([] : List LogEntry), ∀ j pre2 eff2,
        en = LogEntry.invoke .PhaseAtTarget 0 j pre2 eff2 → j ≤ 0) ∧
    (LogEntry.phase .PhaseAtTarget ∈ ([LogEntry.phase .PhaseAtTarget] : List LogEntry) ↔
      ({ baseEvent with stop_immediate := true } : Event).stop_propagation = false) ∧
    (LogEntry.phase .PhaseBubbling ∈ ([LogEntry.phase .PhaseBubbling] : List LogEntry) ↔
      (({ baseEvent with bubbles := true, stop_immediate := true } : Event).bubbles = true ∧
       ({ baseEvent with bubbles := true, stop_immediate := true }
          : Event).stop_propagation = false)) :=
  ⟨c4_stop_immediate_scope.1 siWorld 0 none baseEvent true
      { baseEvent with target := some 0, stop_propagation := true, stop_immediate := true }
      [LogEntry.phase .PhaseCapturing, LogEntry.phase .PhaseAtTarget,
       LogEntry.invoke .PhaseAtTarget 0 0 siWitnessPre siEffect]
      [LogEntry.phase .PhaseCapturing, LogEntry.phase .PhaseAtTarget] .PhaseAtTarget 0 0
      siWitnessPre siEffect [] rfl rfl rfl,
   c4_stop_immediate_scope.2.1 emptyWorld ("ev") 0 { baseEvent with stop_immediate := true }
      { baseEvent with stop_immediate := true, phase := Phase.PhaseAtTarget,
                       current_target := some 0 }
      [LogEntry.phase .PhaseAtTarget] rfl,
   c4_stop_immediate_scope.2.2 emptyWorld ("ev") []
      { baseEvent with bubbles := true, stop_immediate := true }
      { baseEvent with bubbles := true, stop_immediate := true,
                       phase := Phase.PhaseBubbling }
      [LogEntry.phase .PhaseBubbling] rfl⟩

/-- C9: in CreateHTMLDocument and CreateDocument every append-child call on the
tree under construction is asserted to succeed: the call returns normally
exactly when all performed appends succeed and terminates abnormally
through the assertion otherwise, and the only error ever surfaced through
the Fallible result of CreateDocument is the CreateElementNS error, never
an append failure (CreateHTMLDocument has no Fallible result at all). -/
theorem c9_construction_appends_asserted :
    (∀ (env : ConstructionEnv) (title : Option String),
      CreateHTMLDocument env title =
        (if (htmlDocAppends title).all (fun pc => appendOk (env.appendChild pc.1 pc.2))
         then .ok (NodeDesc.document true) else .error .assertionFailed))
    ∧ (∀ (env : ConstructionEnv) (ns : Option String) (qname : String)
         (dt : Option NodeDesc),
        CreateDocument env ns qname dt =
          (match (if qname.isEmpty then .ok none
                  else (env.createElementNS ns qname).map some :
              Except DOMError (Option NodeDesc)) with
           | .error e => .ok (.error e)
           | .ok maybe_elem =>
             if (createDocAppends dt maybe_elem).all
                 (fun pc => appendOk (env.appendChild pc.1 pc.2))
             then .ok (.ok (NodeDesc.document false))
             else .error .assertionFailed)) := by
  constructor
  · intro env title
    simp only [CreateHTMLDocument, htmlDocAppends]
    cases hA1 : env.appendChild (NodeDesc.document true)
        (NodeDesc.doctypeNode ("html") none none) with
    | error e => simp [appendOk, hA1]
    | ok u =>
      cases hA2 : env.appendChild (NodeDesc.document true) (NodeDesc.htmlElement ("html")) with
      | error e => simp [appendOk, hA1, hA2]
      | ok u2 =>
        cases hA3 : env.appendChild (NodeDesc.htmlElement ("html"))
            (NodeDesc.htmlElement ("head")) with
        | error e => simp [appendOk, hA1, hA2, hA3]
        | ok u3 =>
          cases title with
          | none =>
            cases hA4 : env.appendChild (NodeDesc.htmlElement ("html"))
                (NodeDesc.htmlElement ("body")) with
            | error e => simp [appendOk, hA1, hA2, hA3, hA4]
            | ok u4 => simp [appendOk, hA1, hA2, hA3, hA4]
          | some t =>
            cases hA4 : env.appendChild (NodeDesc.htmlElement ("head"))
                (NodeDesc.htmlElement ("title")) with
            | error e => simp [appendOk, hA1, hA2, hA3, hA4]
            | ok u4 =>
              cases hA5 : env.appendChild (NodeDesc.htmlElement ("title"))
                  (NodeDesc.textNode t) with
              | error e => simp [appendOk, hA1, hA2, hA3, hA4, hA5]
              | ok u5 =>
                cases hA6 : env.appendChild (NodeDesc.htmlElement ("html"))
                    (NodeDesc.htmlElement ("body")) with
                | error e => simp [appendOk, hA1, hA2, hA3, hA4, hA5, hA6]
                | ok u6 => simp [appendOk, hA1, hA2, hA3, hA4, hA5, hA6]
  · intro env ns qname dt
    simp only [CreateDocument, createDocAppends]
    cases hE : (if qname.isEmpty then .ok none
        else (env.createElementNS ns qname).map some :
        Except DOMError (Option NodeDesc)) with
    | error e => simp [hE]
    | ok maybe_elem =>
      simp only [hE]
      cases dt with
      | none =>
        cases maybe_elem with
        | none => simp [appendOk]
        | some elem =>
          cases hA : env.appendChild (NodeDesc.document false) elem with
          | error e => simp [appendOk, hA]
          | ok u => simp [appendOk, hA]
      | some d =>
        cases hA1 : env.appendChild (NodeDesc.document false) d with
        | error e => simp [appendOk, hA1]
        | ok u =>
          cases maybe_elem with
          | none => simp [appendOk, hA1]
          | some elem =>
            cases hA2 : env.appendChild (NodeDesc.document false) elem with
            | error e => simp [appendOk, hA1, hA2]
            | ok u2 => simp [appendOk, hA1, hA2]

end ServoEventDispatch
